import Mathlib

/-!
# vec3 (raytrace/cpp/vec3.h)

A shallow embedding of the `vec3` value type.  The source stores three
`double` components in `double e[3]`.  Every operation of the header is
translated once, generically in the scalar type `α`, so that the same
definition can be read

* over `Dbl`, a model of IEEE-754 binary64 (what the C++ `double` computes): signed
  zeros, subnormals, infinities and NaN, every `+ - * /` and `sqrt` rounded on its own to
  nearest, ties to even (no fused multiply-add, no extended intermediate precision), and
* over an exact field such as `ℝ` or `ℚ` (the idealised reading of the components).

Equality of two `double`s below is identity of the values, NaN being one value.
Error bounds on computed `double`s are stated through `Dbl.toRat`, the exact rational
value of a finite `double`, and rest on the bound `|fl(x) - x| ≤ 2^-53 * max |x| 2^-1022`
proved for each rounded operation of the model whose exact result is below `2^1023`.

The methods that write to their receiver (`operator+=`, `operator/=`) are also run on a
`Store` of objects addressed by location, so that the receiver, the objects referred to by
the arguments and the returned reference can be told apart.
-/

/-! ## The scalar type `double` -/

/-- A `double` value (IEEE-754 binary64).  `fin neg m e` is the finite value
`(-1)^neg * m * 2^e`; the genuine binary64 values are those with `m < 2^53`,
`-1074 ≤ e ≤ 971` and `2^52 ≤ m` unless `e = -1074` (see `Dbl.valid`).  NaN payloads
are not distinguished. -/
inductive Dbl where
  | nan : Dbl
  | inf (neg : Bool) : Dbl
  | fin (neg : Bool) (m : Nat) (e : Int) : Dbl
  deriving DecidableEq

namespace Dbl

/-- The zero of the given sign. -/
def zero (neg : Bool) : Dbl := fin neg 0 (-1074)

/-- The canonical binary64 representations. -/
def valid : Dbl → Bool
  | nan => true
  | inf _ => true
  | fin _ m e => decide (m < 2 ^ 53) && decide (-1074 ≤ e) && decide (e ≤ 971) &&
      (decide (e = -1074) || decide (2 ^ 52 ≤ m))

/-- A finite value: neither an infinity nor NaN. -/
def isFinite : Dbl → Bool
  | fin _ _ _ => true
  | _ => false

/-- The value is not negative: its sign bit is clear and it is not NaN (`+0`, a positive
finite value or `+∞`). -/
def nonneg : Dbl → Bool
  | nan => false
  | inf s => !s
  | fin s _ _ => !s

/-- The value is NaN. -/
def isNaN : Dbl → Bool
  | nan => true
  | _ => false

/-- The sign bit of an infinity or of a finite value (`false` for NaN, whose sign is not
modelled). -/
def signBit : Dbl → Bool
  | nan => false
  | inf s => s
  | fin s _ _ => s

/-- The value is `+0` or `-0`. -/
def isZero : Dbl → Bool
  | fin _ m _ => decide (m = 0)
  | _ => false

/-- The bit length of `n`: halving `n` until it is zero, at most `fuel` times. -/
def bitsAux : Nat → Nat → Nat
  | 0, _ => 0
  | fuel + 1, n => if n = 0 then 0 else bitsAux fuel (n / 2) + 1

/-- The number of binary digits of `n` (`0` for `n = 0`). -/
def bits (n : Nat) : Nat := bitsAux n n

/-- Rounding to nearest, ties to even, of the exact value `(-1)^neg * (m + δ) * 2^e`,
where `δ = 0` when `sticky` is false and `0 < δ < 1` when it is true (the callers that
pass `sticky` supply an `m` of at least 55 bits).  The result exponent `e1` is the one that
leaves 53 significant bits, but not below `-1074` (subnormal range); `m` is shifted to it,
the bits shifted out decide the direction, and a value beyond the largest `double`
becomes the infinity of its sign. -/
def round (neg : Bool) (m : Nat) (e : Int) (sticky : Bool) : Dbl :=
  if m = 0 then zero neg
  else
    let e1 : Int := max (e + (bits m : Nat) - 53) (-1074)
    let s : Nat := (e1 - e).toNat
    let q : Nat := m * 2 ^ (e - e1).toNat / 2 ^ s
    let rem : Nat := m % 2 ^ s
    let half : Nat := 2 ^ (s - 1)
    let up : Bool :=
      decide (half < rem) || (decide (rem = half) && (sticky || decide (q % 2 = 1)))
    let q1 : Nat := if up then q + 1 else q
    let q2 : Nat := if q1 = 2 ^ 53 then 2 ^ 52 else q1
    let e2 : Int := if q1 = 2 ^ 53 then e1 + 1 else e1
    if 971 < e2 then inf neg else fin neg q2 e2

/-- Unary minus: flips the sign bit. -/
def neg : Dbl → Dbl
  | nan => nan
  | inf s => inf (!s)
  | fin s m e => fin (!s) m e

/-- Addition, correctly rounded. -/
def add : Dbl → Dbl → Dbl
  | nan, _ => nan
  | _, nan => nan
  | inf s, inf t => if s = t then inf s else nan
  | inf s, fin _ _ _ => inf s
  | fin _ _ _, inf t => inf t
  | fin s m e, fin t n f =>
    let k : Int := min e f
    let a : Int := (if s then -1 else 1) * (m * 2 ^ (e - k).toNat : Nat)
    let b : Int := (if t then -1 else 1) * (n * 2 ^ (f - k).toNat : Nat)
    if a + b = 0 then zero (s && t)
    else round (decide (a + b < 0)) (a + b).natAbs k false

/-- Subtraction: `a - b` is `a + (-b)`. -/
def sub (a b : Dbl) : Dbl := add a (neg b)

/-- Multiplication, correctly rounded. -/
def mul : Dbl → Dbl → Dbl
  | nan, _ => nan
  | _, nan => nan
  | inf s, inf t => inf (xor s t)
  | inf s, fin t n _ => if n = 0 then nan else inf (xor s t)
  | fin s m _, inf t => if m = 0 then nan else inf (xor s t)
  | fin s m e, fin t n f => round (xor s t) (m * n) (e + f) false

/-- Division, correctly rounded; a finite non-zero value divided by a zero is an
infinity, `0 / 0` and `∞ / ∞` are NaN. -/
def div : Dbl → Dbl → Dbl
  | nan, _ => nan
  | _, nan => nan
  | inf _, inf _ => nan
  | inf s, fin t _ _ => inf (xor s t)
  | fin s _ _, inf t => zero (xor s t)
  | fin s m e, fin t n f =>
    if n = 0 then (if m = 0 then nan else inf (xor s t))
    else
      let k : Nat := bits n + 64
      round (xor s t) (m * 2 ^ k / n) (e - f - k) (decide (m * 2 ^ k % n ≠ 0))

/-- Binary digit-by-digit square root: the digits of weight `2^(i-1)`, ..., `2^0` are
added to `r` one at a time, each kept when the square stays within `n`. -/
def isqrtAux : Nat → Nat → Nat → Nat
  | 0, _, r => r
  | i + 1, n, r => isqrtAux i n (if (r + 2 ^ i) * (r + 2 ^ i) ≤ n then r + 2 ^ i else r)

/-- The integer square root `⌊√n⌋`. -/
def isqrt (n : Nat) : Nat := isqrtAux (bits n) n 0

/-- Square root, correctly rounded; NaN for a negative non-zero argument. -/
def sqrt : Dbl → Dbl
  | nan => nan
  | inf s => if s then nan else inf false
  | fin s m e =>
    if m = 0 then zero s
    else if s then nan
    else
      let k : Nat := if (e - 128) % 2 = 0 then 128 else 129
      let r : Nat := isqrt (m * 2 ^ k)
      round false r ((e - k) / 2) (decide (r * r ≠ m * 2 ^ k))

/-- The rational number that a finite value denotes, `(-1)^neg * m * 2^e`; `0` for an
infinity and for NaN, which denote no number. -/
def toRat : Dbl → ℚ
  | nan => 0
  | inf _ => 0
  | fin s m e => (if s then -1 else 1) * (m : ℚ) * (2 : ℚ) ^ e

/-- The real number that a finite value denotes (`toRat` read in `ℝ`). -/
noncomputable def toReal (x : Dbl) : ℝ := ((toRat x : ℚ) : ℝ)

/-- Conversion of an integer to the nearest `double`. -/
def ofInt (n : Int) : Dbl := round (decide (n < 0)) n.natAbs 0 false

instance : Neg Dbl := ⟨neg⟩
instance : Add Dbl := ⟨add⟩
instance : Sub Dbl := ⟨sub⟩
instance : Mul Dbl := ⟨mul⟩
instance : Div Dbl := ⟨div⟩
instance (n : Nat) : OfNat Dbl n := ⟨ofInt n⟩

end Dbl

/-- The square-root operation `sqrt` of `<math.h>`, as an operation of the scalar type. -/
class HasSqrt (α : Type) where
  /-- The square root. -/
  sqrt : α → α

instance : HasSqrt Dbl := ⟨Dbl.sqrt⟩

noncomputable instance : HasSqrt ℝ := ⟨Real.sqrt⟩

/-- The class `vec3`: the array `double e[3]`, one field per cell. -/
structure vec3 (α : Type) where
  /-- Cell `e[0]`. -/
  e0 : α
  /-- Cell `e[1]`. -/
  e1 : α
  /-- Cell `e[2]`. -/
  e2 : α
  deriving DecidableEq

namespace vec3

variable {α : Type}

/-- The constructor `vec3(double e0, double e1, double e2)`. -/
def Construct (a b c : α) : vec3 α := ⟨a, b, c⟩

/-- The accessor `x()`: returns `e[0]`. -/
def x (v : vec3 α) : α := v.e0
/-- The accessor `y()`: returns `e[1]`. -/
def y (v : vec3 α) : α := v.e1
/-- The accessor `z()`: returns `e[2]`. -/
def z (v : vec3 α) : α := v.e2
/-- The accessor `r()`: returns `e[0]`. -/
def r (v : vec3 α) : α := v.e0
/-- The accessor `g()`: returns `e[1]`. -/
def g (v : vec3 α) : α := v.e1
/-- The accessor `b()`: returns `e[2]`. -/
def b (v : vec3 α) : α := v.e2

/-- The indexing `operator[](int i)`: returns `e[i]`.  An index outside `0..2` is
undefined behaviour in the source; the index type excludes it. -/
def component (v : vec3 α) (i : Fin 3) : α :=
  match i with
  | 0 => v.e0
  | 1 => v.e1
  | 2 => v.e2

/-- The unary `operator-()`: `vec3(-e[0], -e[1], -e[2])`. -/
def negate [Neg α] (v : vec3 α) : vec3 α := Construct (-v.e0) (-v.e1) (-v.e2)

/-- The method `length()`: `sqrt(e[0]*e[0] + e[1]*e[1] + e[2]*e[2])`. -/
def length [Add α] [Mul α] [HasSqrt α] (v : vec3 α) : α :=
  HasSqrt.sqrt (v.e0 * v.e0 + v.e1 * v.e1 + v.e2 * v.e2)

/-- The method `squared_length()`: `e[0]*e[0] + e[1]*e[1] + e[2]*e[2]`. -/
def squared_length [Add α] [Mul α] (v : vec3 α) : α :=
  v.e0 * v.e0 + v.e1 * v.e1 + v.e2 * v.e2

/-- The binary `operator+(vec3, vec3)`. -/
def add [Add α] (v1 v2 : vec3 α) : vec3 α :=
  Construct (v1.e0 + v2.e0) (v1.e1 + v2.e1) (v1.e2 + v2.e2)

/-- The binary `operator-(vec3, vec3)`. -/
def subtract [Sub α] (v1 v2 : vec3 α) : vec3 α :=
  Construct (v1.e0 - v2.e0) (v1.e1 - v2.e1) (v1.e2 - v2.e2)

/-- The binary `operator*(vec3, vec3)`. -/
def multiply_elementwise [Mul α] (v1 v2 : vec3 α) : vec3 α :=
  Construct (v1.e0 * v2.e0) (v1.e1 * v2.e1) (v1.e2 * v2.e2)

/-- The overload `operator*(double t, const vec3 &v)`: `vec3(t*v.e[0], t*v.e[1], t*v.e[2])`. -/
def scale [Mul α] (t : α) (v : vec3 α) : vec3 α :=
  Construct (t * v.e0) (t * v.e1) (t * v.e2)

/-- The overload `operator*(const vec3 &v, double t)`: `vec3(t*v.e[0], t*v.e[1], t*v.e[2])`. -/
def scale_right [Mul α] (v : vec3 α) (t : α) : vec3 α :=
  Construct (t * v.e0) (t * v.e1) (t * v.e2)

/-- The binary `operator/(vec3, double)`: `vec3(v.e[0]/t, v.e[1]/t, v.e[2]/t)`. -/
def divide [Div α] (v : vec3 α) (t : α) : vec3 α :=
  Construct (v.e0 / t) (v.e1 / t) (v.e2 / t)

/-- The method `operator+=`: the receiver after `e[i] += v.e[i]` for `i = 0, 1, 2`;
the returned reference `*this` denotes that same receiver. -/
def add_in_place [Add α] (self v : vec3 α) : vec3 α :=
  let s0 : vec3 α := { self with e0 := self.e0 + v.e0 }
  let s1 : vec3 α := { s0 with e1 := s0.e1 + v.e1 }
  { s1 with e2 := s1.e2 + v.e2 }

/-- The method `operator/=`: the receiver after `e[i] /= t` for `i = 0, 1, 2`;
the returned reference `*this` denotes that same receiver. -/
def divide_in_place [Div α] (self : vec3 α) (t : α) : vec3 α :=
  let s0 : vec3 α := { self with e0 := self.e0 / t }
  let s1 : vec3 α := { s0 with e1 := s0.e1 / t }
  { s1 with e2 := s1.e2 / t }

/-- The function `dot`: `v1.e[0]*v2.e[0] + v1.e[1]*v2.e[1] + v1.e[2]*v2.e[2]`. -/
def dot [Add α] [Mul α] (v1 v2 : vec3 α) : α :=
  v1.e0 * v2.e0 + v1.e1 * v2.e1 + v1.e2 * v2.e2

/-- The function `unit_vector`: `v / v.length()`. -/
def unit_vector [Add α] [Mul α] [Div α] [HasSqrt α] (v : vec3 α) : vec3 α :=
  divide v (length v)

/-- The `vec3` objects of a program state, by address.  A reference (`vec3&`,
`const vec3&`) and the pointer `this` are addresses; two references may be the same address. -/
def Store (α : Type) : Type := Nat → vec3 α

/-- The store after the object at address `p` has been overwritten by `v`. -/
def Store.write (σ : Store α) (p : Nat) (v : vec3 α) : Store α :=
  fun q => if q = p then v else σ q

/-- The method `operator+=` run on a store: `self` is `this`, `v` is the address bound to the
parameter `const vec3 &v` (it may be `self`).  The three statements `e[0] += v.e[0];`
`e[1] += v.e[1];` `e[2] += v.e[2];` run in order, each reading the current store; the result
is the final store and the returned reference `*this`. -/
def add_in_place_at [Add α] (σ : Store α) (self v : Nat) : Store α × Nat :=
  let σ1 : Store α := σ.write self { σ self with e0 := (σ self).e0 + (σ v).e0 }
  let σ2 : Store α := σ1.write self { σ1 self with e1 := (σ1 self).e1 + (σ1 v).e1 }
  let σ3 : Store α := σ2.write self { σ2 self with e2 := (σ2 self).e2 + (σ2 v).e2 }
  (σ3, self)

/-- The method `operator/=` run on a store: `self` is `this`, the scalar `const double t` is
passed by value.  The three statements `e[0] /= t;` `e[1] /= t;` `e[2] /= t;` run in order;
the result is the final store and the returned reference `*this`. -/
def divide_in_place_at [Div α] (σ : Store α) (self : Nat) (t : α) : Store α × Nat :=
  let σ1 : Store α := σ.write self { σ self with e0 := (σ self).e0 / t }
  let σ2 : Store α := σ1.write self { σ1 self with e1 := (σ1 self).e1 / t }
  let σ3 : Store α := σ2.write self { σ2 self with e2 := (σ2 self).e2 / t }
  (σ3, self)

/-- The unary `operator-() const` run on a store: it reads the receiver `self`, writes
nothing, and returns a new `vec3` by value; the result is the store after and that value. -/
def negate_at [Neg α] (σ : Store α) (self : Nat) : Store α × vec3 α :=
  (σ, Construct (-(σ self).e0) (-(σ self).e1) (-(σ self).e2))

/-- The exact rational values of the components of a vector of `double`s (used to state
error bounds; a non-finite component reads as `0`). -/
def toRatVec (v : vec3 Dbl) : vec3 ℚ :=
  Construct (Dbl.toRat v.e0) (Dbl.toRat v.e1) (Dbl.toRat v.e2)

/-- The stream insertion `operator<<`: writes `"("`, `e[0]`, `","`, `e[1]`, `","`, `e[2]`, `")"`
in that order.  The text that the stream writes for one `double` is the library's;
it is the parameter `render`. -/
def to_text (render : α → String) (v : vec3 α) : String :=
  "(" ++ render v.e0 ++ "," ++ render v.e1 ++ "," ++ render v.e2 ++ ")"

end vec3

/-! ## Facts about `double` arithmetic -/

set_option maxRecDepth 100000
set_option exponentiation.threshold 4096

namespace Dbl

theorem add_def (x y : Dbl) : x + y = add x y := rfl

theorem mul_def (x y : Dbl) : x * y = mul x y := rfl

theorem neg_def (x : Dbl) : -x = neg x := rfl

theorem zero_def : (0 : Dbl) = zero false := rfl

/-- A finite `x` added to `-x` is `+0`; for an infinity or NaN the sum is NaN. -/
theorem add_neg_self (x : Dbl) :
    x + -x = if x.isFinite then 0 else nan := by
  rw [neg_def, add_def, zero_def]
  cases x with
  | nan => rfl
  | inf s => cases s <;> rfl
  | fin s m e => cases s <;> simp [neg, add, isFinite]

/-- Addition of `double`s is commutative. -/
theorem add_comm (x y : Dbl) : x + y = y + x := by
  rw [add_def, add_def]
  cases x with
  | nan => cases y <;> rfl
  | inf s =>
    cases y with
    | nan => rfl
    | inf t => cases s <;> cases t <;> rfl
    | fin t n f => rfl
  | fin s m e =>
    cases y with
    | nan => rfl
    | inf t => rfl
    | fin t n f =>
      simp only [add]
      rw [min_comm f e, Bool.and_comm t s,
        Int.add_comm ((if t then -1 else 1) * _) ((if s then -1 else 1) * _)]

/-- Multiplication of `double`s is commutative. -/
theorem mul_comm (x y : Dbl) : x * y = y * x := by
  rw [mul_def, mul_def]
  cases x with
  | nan => cases y <;> rfl
  | inf s =>
    cases y with
    | nan => rfl
    | inf t => simp [mul, Bool.xor_comm]
    | fin t n f => simp [mul, Bool.xor_comm]
  | fin s m e =>
    cases y with
    | nan => rfl
    | inf t => simp [mul, Bool.xor_comm]
    | fin t n f =>
      simp only [mul]
      rw [Bool.xor_comm t s, Nat.mul_comm n m, Int.add_comm f e]

/-- Zero has no binary digit. -/
theorem bitsAux_zero (fuel : Nat) : bitsAux fuel 0 = 0 := by
  cases fuel <;> simp [bitsAux]

/-- With enough fuel, `bitsAux` returns the position of the leading binary digit. -/
theorem bitsAux_spec (fuel : Nat) : ∀ n : Nat, n ≤ fuel → n ≠ 0 →
    2 ^ (bitsAux fuel n - 1) ≤ n ∧ n < 2 ^ bitsAux fuel n := by
  induction fuel with
  | zero => intro n h hn; omega
  | succ fuel ih =>
    intro n h hn
    simp only [bitsAux, hn, if_false, Nat.add_sub_cancel]
    by_cases h2 : n / 2 = 0
    · have h1 : n = 1 := by omega
      subst h1
      simp [bitsAux_zero]
    · obtain ⟨lo, hi⟩ := ih (n / 2) (by omega) h2
      have hb : 1 ≤ bitsAux fuel (n / 2) := by
        rcases Nat.eq_zero_or_pos (bitsAux fuel (n / 2)) with h0 | h0
        · rw [h0] at hi; omega
        · exact h0
      constructor
      · have : 2 ^ bitsAux fuel (n / 2) = 2 * 2 ^ (bitsAux fuel (n / 2) - 1) := by
          rw [← pow_succ']; congr 1; omega
        omega
      · rw [pow_succ]; omega

/-- A non-zero `n` has exactly `bits n` binary digits: `2^(bits n - 1) ≤ n < 2^(bits n)`. -/
theorem bits_spec (n : Nat) (hn : n ≠ 0) : 2 ^ (bits n - 1) ≤ n ∧ n < 2 ^ bits n :=
  bitsAux_spec n n (le_refl n) hn

/-- The significand that `round` obtains by shifting to the result exponent has at most 53
bits, and exactly 53 unless the exponent is the least one. -/
theorem round_shift_bounds (m : Nat) (e : Int) (hm : m ≠ 0) :
    m * 2 ^ (e - max (e + (bits m : Nat) - 53) (-1074)).toNat /
        2 ^ (max (e + (bits m : Nat) - 53) (-1074) - e).toNat < 2 ^ 53 ∧
      (max (e + (bits m : Nat) - 53) (-1074) = -1074 ∨
        2 ^ 52 ≤ m * 2 ^ (e - max (e + (bits m : Nat) - 53) (-1074)).toNat /
          2 ^ (max (e + (bits m : Nat) - 53) (-1074) - e).toNat) := by
  obtain ⟨lo, hi⟩ := bits_spec m hm
  have hb : 1 ≤ bits m := by
    rcases Nat.eq_zero_or_pos (bits m) with h0 | h0
    · rw [h0] at hi; omega
    · exact h0
  generalize bits m = b at lo hi hb
  generalize he1 : max (e + (b : Int) - 53) (-1074) = e1
  have h1 : e + (b : Int) - 53 ≤ e1 := by rw [← he1]; exact le_max_left _ _
  have h2 : e1 = -1074 ∨ e1 = e + (b : Int) - 53 := by
    rw [← he1]; rcases max_cases (e + (b : Int) - 53) (-1074) with h | h <;> omega
  by_cases hc : e1 ≤ e
  · -- no bit is shifted out
    have hs : (e1 - e).toNat = 0 := by omega
    rw [hs, pow_zero, Nat.div_one]
    obtain ⟨l, hl⟩ : ∃ l : Nat, (e - e1).toNat = l := ⟨_, rfl⟩
    rw [hl]
    have hbl : b + l ≤ 53 := by omega
    constructor
    · calc m * 2 ^ l < 2 ^ b * 2 ^ l := Nat.mul_lt_mul_of_pos_right hi (by positivity)
        _ = 2 ^ (b + l) := (pow_add 2 b l).symm
        _ ≤ 2 ^ 53 := Nat.pow_le_pow_right (by norm_num) hbl
    · rcases h2 with h2 | h2
      · exact Or.inl h2
      · right
        have hl2 : (b - 1) + l = 52 := by omega
        calc 2 ^ 52 = 2 ^ ((b - 1) + l) := by rw [hl2]
          _ = 2 ^ (b - 1) * 2 ^ l := pow_add 2 _ _
          _ ≤ m * 2 ^ l := Nat.mul_le_mul_right _ lo
  · -- `s` low bits are shifted out
    have hl : (e - e1).toNat = 0 := by omega
    rw [hl, pow_zero, Nat.mul_one]
    obtain ⟨s, hs⟩ : ∃ s : Nat, (e1 - e).toNat = s := ⟨_, rfl⟩
    rw [hs]
    have hbs : b ≤ s + 53 := by omega
    constructor
    · apply Nat.div_lt_of_lt_mul
      calc m < 2 ^ b := hi
        _ ≤ 2 ^ (s + 53) := Nat.pow_le_pow_right (by norm_num) hbs
        _ = 2 ^ s * 2 ^ 53 := pow_add 2 _ _
    · rcases h2 with h2 | h2
      · exact Or.inl h2
      · right
        have hb2 : b - 1 = 52 + s := by omega
        rw [Nat.le_div_iff_mul_le (by positivity)]
        calc 2 ^ 52 * 2 ^ s = 2 ^ (52 + s) := (pow_add 2 _ _).symm
          _ = 2 ^ (b - 1) := by rw [hb2]
          _ ≤ m := lo

/-- Whatever its arguments, `round` returns a canonical binary64 value. -/
theorem round_valid (neg : Bool) (m : Nat) (e : Int) (sticky : Bool) :
    valid (round neg m e sticky) = true := by
  unfold round
  by_cases hm : m = 0
  · simp [hm, zero, valid]
  · rw [if_neg hm]
    obtain ⟨hq, hn⟩ := round_shift_bounds m e hm
    have he1 : (-1074 : Int) ≤ max (e + (bits m : Nat) - 53) (-1074) := le_max_right _ _
    dsimp only
    generalize max (e + (bits m : Nat) - 53) (-1074) = e1 at hq hn he1 ⊢
    generalize m * 2 ^ (e - e1).toNat / 2 ^ (e1 - e).toNat = q at hq hn ⊢
    generalize (decide (2 ^ ((e1 - e).toNat - 1) < m % 2 ^ (e1 - e).toNat) ||
      (decide (m % 2 ^ (e1 - e).toNat = 2 ^ ((e1 - e).toNat - 1)) &&
        (sticky || decide (q % 2 = 1)))) = up
    cases up
    · simp only [Bool.false_eq_true, if_false]
      have hq' : q ≠ 2 ^ 53 := by omega
      rw [if_neg hq', if_neg hq']
      by_cases h9 : 971 < e1
      · simp [h9, valid]
      · rw [if_neg h9]
        simp only [valid, Bool.and_eq_true, Bool.or_eq_true, decide_eq_true_eq]
        exact ⟨⟨⟨hq, he1⟩, by omega⟩, hn⟩
    · simp only [if_true]
      by_cases hc : q + 1 = 2 ^ 53
      · rw [if_pos hc, if_pos hc]
        by_cases h9 : 971 < e1 + 1
        · simp [h9, valid]
        · rw [if_neg h9]
          simp only [valid, Bool.and_eq_true, Bool.or_eq_true, decide_eq_true_eq]
          exact ⟨⟨⟨by norm_num, by omega⟩, by omega⟩, Or.inr (le_refl _)⟩
      · rw [if_neg hc, if_neg hc]
        by_cases h9 : 971 < e1
        · simp [h9, valid]
        · rw [if_neg h9]
          simp only [valid, Bool.and_eq_true, Bool.or_eq_true, decide_eq_true_eq]
          refine ⟨⟨⟨by omega, he1⟩, by omega⟩, ?_⟩
          rcases hn with hn | hn
          · exact Or.inl hn
          · exact Or.inr (by omega)

/-- The digit-by-digit square root keeps `r * r ≤ n < (r + 2^i) * (r + 2^i)`. -/
theorem isqrtAux_spec (i : Nat) : ∀ n r : Nat, r * r ≤ n → n < (r + 2 ^ i) * (r + 2 ^ i) →
    isqrtAux i n r * isqrtAux i n r ≤ n ∧ n < (isqrtAux i n r + 1) * (isqrtAux i n r + 1) := by
  induction i with
  | zero => intro n r h1 h2; simpa [isqrtAux] using ⟨h1, h2⟩
  | succ i ih =>
    intro n r h1 h2
    simp only [isqrtAux]
    split
    · rename_i h
      refine ih n _ h ?_
      have : r + 2 ^ i + 2 ^ i = r + 2 ^ (i + 1) := by rw [pow_succ]; omega
      rw [this]; exact h2
    · rename_i h
      exact ih n r h1 (by omega)

/-- The function `isqrt` is the integer square root: `isqrt n` is the largest `r` with
`r * r ≤ n`. -/
theorem isqrt_spec (n : Nat) : isqrt n * isqrt n ≤ n ∧ n < (isqrt n + 1) * (isqrt n + 1) := by
  refine isqrtAux_spec (bits n) n 0 (Nat.zero_le _) ?_
  rw [Nat.zero_add]
  by_cases hn : n = 0
  · subst hn; positivity
  · have h := (bits_spec n hn).2
    have h1 : 1 ≤ 2 ^ bits n := Nat.one_le_two_pow
    calc n < 2 ^ bits n := h
      _ = 2 ^ bits n * 1 := (Nat.mul_one _).symm
      _ ≤ 2 ^ bits n * 2 ^ bits n := Nat.mul_le_mul_left _ h1

/-- The sum of any two values is a canonical binary64 value. -/
theorem add_valid (x y : Dbl) : valid (x + y) = true := by
  rw [add_def]
  cases x with
  | nan => cases y <;> rfl
  | inf s =>
    cases y with
    | nan => rfl
    | inf t => simp only [add]; split <;> rfl
    | fin t n f => rfl
  | fin s m e =>
    cases y with
    | nan => rfl
    | inf t => rfl
    | fin t n f =>
      simp only [add]
      split_ifs <;> first | exact round_valid _ _ _ _ | simp [zero, valid]

/-- The product of any two values is a canonical binary64 value. -/
theorem mul_valid (x y : Dbl) : valid (x * y) = true := by
  rw [mul_def]
  cases x with
  | nan => cases y <;> rfl
  | inf s =>
    cases y with
    | nan => rfl
    | inf t => rfl
    | fin t n f => simp only [mul]; split <;> rfl
  | fin s m e =>
    cases y with
    | nan => rfl
    | inf t => simp only [mul]; split <;> rfl
    | fin t n f => exact round_valid _ _ _ _

/-- The quotient of any two values is a canonical binary64 value. -/
theorem div_valid (x y : Dbl) : valid (x / y) = true := by
  show valid (div x y) = true
  cases x with
  | nan => cases y <;> rfl
  | inf s =>
    cases y with
    | nan => rfl
    | inf t => rfl
    | fin t n f => rfl
  | fin s m e =>
    cases y with
    | nan => rfl
    | inf t => simp [div, zero, valid]
    | fin t n f =>
      simp only [div]
      split
      · split <;> rfl
      · exact round_valid _ _ _ _

/-- The square root of any value is a canonical binary64 value. -/
theorem sqrt_valid (x : Dbl) : valid (sqrt x) = true := by
  cases x with
  | nan => rfl
  | inf s => cases s <;> rfl
  | fin s m e =>
    simp only [sqrt]
    split
    · simp [zero, valid]
    · split
      · rfl
      · exact round_valid _ _ _ _

/-- Rounding keeps the sign it is given. -/
theorem round_nonneg (m : Nat) (e : Int) (sticky : Bool) :
    nonneg (round false m e sticky) = true := by
  unfold round
  dsimp only
  split_ifs <;> rfl

/-- A square is NaN or not negative. -/
theorem mul_self_nonneg_or_nan (x : Dbl) : x * x = nan ∨ nonneg (x * x) = true := by
  rw [mul_def]
  cases x with
  | nan => exact Or.inl rfl
  | inf s => right; cases s <;> rfl
  | fin s m e =>
    right
    simp only [mul, Bool.xor_self]
    exact round_nonneg _ _ _

/-- A sum of two values that are each NaN or not negative is NaN or not negative. -/
theorem add_nonneg_or_nan (x y : Dbl) (hx : x = nan ∨ nonneg x = true)
    (hy : y = nan ∨ nonneg y = true) : x + y = nan ∨ nonneg (x + y) = true := by
  rw [add_def]
  rcases hx with hx | hx
  · subst hx; left; cases y <;> rfl
  rcases hy with hy | hy
  · subst hy; left; cases x <;> rfl
  right
  cases x with
  | nan => simp [nonneg] at hx
  | inf s =>
    cases y with
    | nan => simp [nonneg] at hy
    | inf t =>
      simp only [nonneg, Bool.not_eq_true'] at hx hy
      subst hx hy
      rfl
    | fin t n f => simpa [add, nonneg] using hx
  | fin s m e =>
    cases y with
    | nan => simp [nonneg] at hy
    | inf t => simpa [add, nonneg] using hy
    | fin t n f =>
      simp only [nonneg, Bool.not_eq_true'] at hx hy
      subst hx hy
      simp only [add, Bool.false_eq_true, if_false, Bool.and_self]
      split
      · rfl
      · rename_i h
        have hlt : ¬ ((1 : Int) * ((m * 2 ^ (e - min e f).toNat : Nat) : Int) +
            1 * ((n * 2 ^ (f - min e f).toNat : Nat) : Int) < 0) := by
          have h1 : (0 : Int) ≤ ((m * 2 ^ (e - min e f).toNat : Nat) : Int) := Int.ofNat_nonneg _
          have h2 : (0 : Int) ≤ ((n * 2 ^ (f - min e f).toNat : Nat) : Int) := Int.ofNat_nonneg _
          omega
        rw [decide_eq_false hlt]
        exact round_nonneg _ _ _

/-- The square root of a value that is NaN or not negative is NaN or not negative. -/
theorem sqrt_nonneg_or_nan (x : Dbl) (hx : x = nan ∨ nonneg x = true) :
    sqrt x = nan ∨ nonneg (sqrt x) = true := by
  rcases hx with hx | hx
  · subst hx; exact Or.inl rfl
  right
  cases x with
  | nan => simp [nonneg] at hx
  | inf s =>
    simp only [nonneg, Bool.not_eq_true'] at hx
    subst hx
    rfl
  | fin s m e =>
    simp only [nonneg, Bool.not_eq_true'] at hx
    subst hx
    simp only [sqrt, Bool.false_eq_true, if_false]
    split
    · rfl
    · exact round_nonneg _ _ _

/-- Division by a zero (`+0` or `-0`): NaN when the dividend is NaN or a zero, otherwise the
infinity whose sign is the product of the two signs. -/
theorem div_zero (x t : Dbl) (ht : isZero t = true) :
    x / t = if isNaN x || isZero x then nan else inf (xor (signBit x) (signBit t)) := by
  show div x t = _
  cases t with
  | nan => simp [isZero] at ht
  | inf s => simp [isZero] at ht
  | fin s n f =>
    simp only [isZero, decide_eq_true_eq] at ht
    subst ht
    cases x with
    | nan => rfl
    | inf u => rfl
    | fin u m e =>
      by_cases hm : m = 0
      · simp [div, isNaN, isZero, hm]
      · simp [div, isNaN, isZero, signBit, hm]

/-- A quotient by a zero is never finite. -/
theorem div_zero_not_finite (x t : Dbl) (ht : isZero t = true) : isFinite (x / t) = false := by
  rw [div_zero x t ht]
  split <;> rfl

/-- Unary minus is an involution. -/
theorem neg_neg (x : Dbl) : - -x = x := by
  rw [neg_def, neg_def]
  cases x <;> simp [neg]

/-- Subtracting is adding the opposite. -/
theorem sub_eq_add_neg (x y : Dbl) : x - y = x + -y := rfl

/-- Known binary64 results, as a check of the arithmetic: `0.1 + 0.2` is
`0.30000000000000004` and not `0.3`; `1/3` and `sqrt 2` are correctly rounded; the largest
`double` doubled overflows to `+∞`; half the least subnormal rounds to `0` (tie to even) and
one and a half times it rounds up; `1/0 = +∞`, `-1/0 = -∞`, `0/0`, `∞ - ∞`, `0 * ∞` and
`sqrt (-1)` are NaN. -/
theorem arithmetic_examples :
    fin false 7205759403792794 (-56) + fin false 7205759403792794 (-55)
        = fin false 5404319552844596 (-54) ∧
      (1 : Dbl) / 3 = fin false 6004799503160661 (-54) ∧
      sqrt 2 = fin false 6369051672525773 (-52) ∧
      sqrt 4 = 2 ∧
      (1 : Dbl) + 1 = 2 ∧
      fin false 9007199254740991 971 + fin false 9007199254740991 971 = inf false ∧
      fin false 1 (-1074) / 2 = 0 ∧
      fin false 3 (-1074) / 2 = fin false 2 (-1074) ∧
      (1 : Dbl) / 0 = inf false ∧
      (-1 : Dbl) / 0 = inf true ∧
      (0 : Dbl) / 0 = nan ∧
      inf false - inf false = nan ∧
      (0 : Dbl) * inf false = nan ∧
      sqrt (-1) = nan := by
  decide


end Dbl

/-! ## The rounding error of `double` arithmetic -/

namespace Dbl

/-- The direction chosen from the bits shifted out is the nearest one. -/
theorem shift_round_err (m s q0 rem : Nat) (sticky : Bool) (δ : ℝ) (hs : 1 ≤ s)
    (hdiv : m = 2 ^ s * q0 + rem) (hrem : rem < 2 ^ s)
    (hδ0 : 0 ≤ δ) (hδ1 : δ < 1) (hst : sticky = false → δ = 0) :
    |(((if (decide (2 ^ (s - 1) < rem) ||
          (decide (rem = 2 ^ (s - 1)) && (sticky || decide (q0 % 2 = 1)))) = true
        then q0 + 1 else q0 : Nat) : ℝ)) * 2 ^ s - ((m : ℝ) + δ)| ≤ 2 ^ (s - 1) := by
  have h2 : 2 ^ s = 2 * 2 ^ (s - 1) := by
    rw [← pow_succ']; congr 1; omega
  generalize hh : 2 ^ (s - 1) = half at h2 ⊢
  have h2r : ((2 : ℝ) ^ s) = 2 * (half : ℝ) := by
    have := congrArg (fun n : Nat => (n : ℝ)) h2
    simpa using this
  have hhr : ((2 : ℝ) ^ (s - 1)) = (half : ℝ) := by
    have := congrArg (fun n : Nat => (n : ℝ)) hh
    simpa using this
  have hmr : (m : ℝ) = 2 ^ s * (q0 : ℝ) + (rem : ℝ) := by
    have := congrArg (fun n : Nat => (n : ℝ)) hdiv
    simpa using this
  rw [hhr, hmr, h2r]
  have hrem0 : (0 : ℝ) ≤ (rem : ℝ) := Nat.cast_nonneg _
  have hhalf0 : (0 : ℝ) ≤ (half : ℝ) := Nat.cast_nonneg _
  have hhalf1 : (1 : ℝ) ≤ (half : ℝ) := by
    have : 1 ≤ half := by rw [← hh]; exact Nat.one_le_two_pow
    exact_mod_cast this
  by_cases h : half < rem
  · have hr1 : (half : ℝ) + 1 ≤ (rem : ℝ) := by exact_mod_cast h
    have hr2 : (rem : ℝ) + 1 ≤ 2 * (half : ℝ) := by
      have : rem + 1 ≤ 2 * half := by omega
      exact_mod_cast this
    have hup : (decide (half < rem) ||
        (decide (rem = half) && (sticky || decide (q0 % 2 = 1)))) = true := by simp [h]
    rw [if_pos hup]
    push_cast
    rw [abs_le]
    constructor <;> linarith
  · by_cases h' : rem = half
    · have hrh : (rem : ℝ) = (half : ℝ) := by exact_mod_cast h'
      by_cases hu : (sticky || decide (q0 % 2 = 1)) = true
      · have hup : (decide (half < rem) ||
            (decide (rem = half) && (sticky || decide (q0 % 2 = 1)))) = true := by
          simp only [h', hu, decide_True, Bool.and_self, Bool.or_true]
        rw [if_pos hup]
        push_cast
        rw [abs_le]
        constructor <;> linarith
      · have hsf : sticky = false := by
          cases sticky
          · rfl
          · simp at hu
        have hd := hst hsf
        have hup : ¬ (decide (half < rem) ||
            (decide (rem = half) && (sticky || decide (q0 % 2 = 1)))) = true := by
          simp only [h, hu, decide_False, Bool.false_or, Bool.and_false, Bool.false_eq_true,
            not_false_eq_true]
        rw [if_neg hup]
        rw [abs_le]
        constructor <;> linarith
    · have hlt : rem < half := by omega
      have hr1 : (rem : ℝ) + 1 ≤ (half : ℝ) := by exact_mod_cast hlt
      have hup : ¬ (decide (half < rem) ||
          (decide (rem = half) && (sticky || decide (q0 % 2 = 1)))) = true := by
        simp [h, h']
      rw [if_neg hup]
      rw [abs_le]
      constructor <;> linarith


/-- Powers of two are positive. -/
theorem two_zpow_pos (e : Int) : (0 : ℝ) < (2 : ℝ) ^ e := zpow_pos (by norm_num) e

/-- Powers of two add their exponents. -/
theorem two_zpow_add (a b : Int) : (2 : ℝ) ^ (a + b) = (2 : ℝ) ^ a * (2 : ℝ) ^ b :=
  zpow_add₀ (by norm_num) a b

/-- The value that `round` returns is within half a unit in the last place of the exact value:
for a value `(m + δ) * 2^e` below `2^1023` the result is finite, of the given sign, and its
distance from the exact value is at most `2^-53` times the larger of that value and `2^-1022`. -/
theorem round_spec (neg : Bool) (m : Nat) (e : Int) (sticky : Bool) (δ : ℝ)
    (hm : m ≠ 0) (hδ0 : 0 ≤ δ) (hδ1 : δ < 1) (hst : sticky = false → δ = 0)
    (hb : δ = 0 ∨ 54 ≤ bits m)
    (hX : ((m : ℝ) + δ) * (2 : ℝ) ^ e < (2 : ℝ) ^ (1023 : Int)) :
    ∃ q : Nat, ∃ e' : Int, round neg m e sticky = fin neg q e' ∧
      |(q : ℝ) * (2 : ℝ) ^ e' - ((m : ℝ) + δ) * (2 : ℝ) ^ e| ≤
        (2 : ℝ) ^ (-53 : Int) * max (((m : ℝ) + δ) * (2 : ℝ) ^ e) ((2 : ℝ) ^ (-1022 : Int)) := by
  obtain ⟨lo, hi⟩ := bits_spec m hm
  have hb1 : 1 ≤ bits m := by
    rcases Nat.eq_zero_or_pos (bits m) with h0 | h0
    · rw [h0] at hi; omega
    · exact h0
  have hpe := two_zpow_pos e
  have hmr : (0 : ℝ) < (m : ℝ) := by exact_mod_cast Nat.pos_of_ne_zero hm
  have hXpos : 0 < ((m : ℝ) + δ) * (2 : ℝ) ^ e := by positivity
  have hmX : (m : ℝ) * (2 : ℝ) ^ e ≤ ((m : ℝ) + δ) * (2 : ℝ) ^ e := by
    apply mul_le_mul_of_nonneg_right _ hpe.le
    linarith
  -- the leading bit of `m`, as a power of two
  have hlo : (2 : ℝ) ^ (((bits m : Nat) : Int) - 1 + e) ≤ (m : ℝ) * (2 : ℝ) ^ e := by
    rw [two_zpow_add]
    apply mul_le_mul_of_nonneg_right _ hpe.le
    have h1 : (((bits m : Nat) : Int) - 1) = ((bits m - 1 : Nat) : Int) := by omega
    rw [h1, zpow_natCast]
    exact_mod_cast lo
  have hE : ((bits m : Nat) : Int) - 1 + e < 1023 := by
    have := lt_of_le_of_lt (le_trans hlo hmX) hX
    exact (zpow_lt_zpow_iff_right₀ (by norm_num : (1 : ℝ) < 2)).mp this
  unfold round
  rw [if_neg hm]
  dsimp only
  generalize bits m = b at lo hi hb1 hb hlo hE ⊢
  generalize he1 : max (e + (b : Int) - 53) (-1074) = e1
  have h1 : e + (b : Int) - 53 ≤ e1 := by rw [← he1]; exact le_max_left _ _
  have h2 : e1 = -1074 ∨ e1 = e + (b : Int) - 53 := by
    rw [← he1]; rcases max_cases (e + (b : Int) - 53) (-1074) with h | h <;> omega
  have h9 : e1 ≤ 970 := by omega
  -- half a unit in the last place is within the tolerance
  have hulp : (2 : ℝ) ^ (e1 - 1) ≤
      (2 : ℝ) ^ (-53 : Int) * max (((m : ℝ) + δ) * (2 : ℝ) ^ e) ((2 : ℝ) ^ (-1022 : Int)) := by
    have hu : (0 : ℝ) < (2 : ℝ) ^ (-53 : Int) := two_zpow_pos _
    rcases h2 with h2 | h2
    · have : (2 : ℝ) ^ (e1 - 1) = (2 : ℝ) ^ (-53 : Int) * (2 : ℝ) ^ (-1022 : Int) := by
        rw [← two_zpow_add, h2]; norm_num
      rw [this]
      exact mul_le_mul_of_nonneg_left (le_max_right _ _) hu.le
    · have : (2 : ℝ) ^ (e1 - 1) = (2 : ℝ) ^ (-53 : Int) * (2 : ℝ) ^ ((b : Int) - 1 + e) := by
        rw [← two_zpow_add, h2]; congr 1; ring
      rw [this]
      exact mul_le_mul_of_nonneg_left (le_trans (le_trans hlo hmX) (le_max_left _ _)) hu.le
  by_cases hc : e1 ≤ e
  · -- no bit is shifted out: the value is exact
    have hδ : δ = 0 := by
      rcases hb with h | h
      · exact h
      · omega
    subst hδ
    have hs : (e1 - e).toNat = 0 := by omega
    obtain ⟨l, hl⟩ : ∃ l : Nat, (e - e1).toNat = l := ⟨_, rfl⟩
    have hlz : (l : Int) = e - e1 := by omega
    rw [hs, hl]
    have hbl : b + l ≤ 53 := by omega
    have hq : m * 2 ^ l < 2 ^ 53 := by
      calc m * 2 ^ l < 2 ^ b * 2 ^ l := Nat.mul_lt_mul_of_pos_right hi (by positivity)
        _ = 2 ^ (b + l) := (pow_add 2 b l).symm
        _ ≤ 2 ^ 53 := Nat.pow_le_pow_right (by norm_num) hbl
    have hq' : m * 2 ^ l ≠ 2 ^ 53 := by omega
    have h971 : ¬ (971 < e1) := by omega
    have hq2 : m * 2 ^ l ≠ 9007199254740992 := by omega
    refine ⟨m * 2 ^ l, e1, by simp [Nat.mod_one, hq2, h971], ?_⟩
    have hval : ((m * 2 ^ l : Nat) : ℝ) * (2 : ℝ) ^ e1 = ((m : ℝ) + 0) * (2 : ℝ) ^ e := by
      have he : e = (l : Int) + e1 := by omega
      rw [he, two_zpow_add, zpow_natCast]
      push_cast
      ring
    rw [hval, sub_self, abs_zero]
    positivity
  · -- the `s` low bits are shifted out
    have hl : (e - e1).toNat = 0 := by omega
    obtain ⟨s, hs⟩ : ∃ s : Nat, (e1 - e).toNat = s := ⟨_, rfl⟩
    have hsz : (s : Int) = e1 - e := by omega
    have hs1 : 1 ≤ s := by omega
    rw [hl, hs]
    simp only [pow_zero, mul_one]
    have hdiv : m = 2 ^ s * (m / 2 ^ s) + m % 2 ^ s := (Nat.div_add_mod m (2 ^ s)).symm
    have hrem : m % 2 ^ s < 2 ^ s := Nat.mod_lt _ (by positivity)
    have herr := shift_round_err m s (m / 2 ^ s) (m % 2 ^ s) sticky δ hs1 hdiv hrem hδ0 hδ1 hst
    generalize (if (decide (2 ^ (s - 1) < m % 2 ^ s) ||
          (decide (m % 2 ^ s = 2 ^ (s - 1)) && (sticky || decide (m / 2 ^ s % 2 = 1)))) = true
        then m / 2 ^ s + 1 else m / 2 ^ s) = q1 at herr ⊢
    -- the distance in terms of the result exponent
    have hdist : |(q1 : ℝ) * (2 : ℝ) ^ e1 - ((m : ℝ) + δ) * (2 : ℝ) ^ e| ≤ (2 : ℝ) ^ (e1 - 1) := by
      have he1' : e1 = e + (s : Int) := by omega
      have he2' : e1 - 1 = e + ((s - 1 : Nat) : Int) := by omega
      rw [he2', he1', two_zpow_add, two_zpow_add, zpow_natCast, zpow_natCast]
      have : (q1 : ℝ) * ((2 : ℝ) ^ e * (2 : ℝ) ^ s) - ((m : ℝ) + δ) * (2 : ℝ) ^ e
          = (2 : ℝ) ^ e * ((q1 : ℝ) * (2 : ℝ) ^ s - ((m : ℝ) + δ)) := by ring
      rw [this, abs_mul, abs_of_pos hpe]
      exact mul_le_mul_of_nonneg_left herr hpe.le
    by_cases hcarry : q1 = 2 ^ 53
    · rw [if_pos hcarry, if_pos hcarry]
      have h971 : ¬ (971 < e1 + 1) := by omega
      rw [if_neg h971]
      refine ⟨2 ^ 52, e1 + 1, rfl, ?_⟩
      have hval : ((2 ^ 52 : Nat) : ℝ) * (2 : ℝ) ^ (e1 + 1) = (q1 : ℝ) * (2 : ℝ) ^ e1 := by
        rw [hcarry, two_zpow_add]
        push_cast
        ring
      rw [hval]
      exact le_trans hdist hulp
    · rw [if_neg hcarry, if_neg hcarry]
      have h971 : ¬ (971 < e1) := by omega
      rw [if_neg h971]
      exact ⟨q1, e1, rfl, le_trans hdist hulp⟩


/-- The real value of a finite `double`. -/
theorem toReal_fin (s : Bool) (m : Nat) (e : Int) :
    toReal (fin s m e) = (if s then -1 else 1) * (m : ℝ) * (2 : ℝ) ^ e := by
  unfold toReal toRat
  cases s <;> simp

/-- A zero denotes `0`. -/
theorem toReal_zero (s : Bool) : toReal (zero s) = 0 := by
  rw [zero, toReal_fin]; simp

/-- The error bound of one rounding: `2^-53` times the larger of the magnitude and `2^-1022`. -/
theorem err_nonneg (X : ℝ) : 0 ≤ (2 : ℝ) ^ (-53 : Int) * max |X| ((2 : ℝ) ^ (-1022 : Int)) := by
  have := two_zpow_pos (-53)
  have := two_zpow_pos (-1022)
  positivity

/-- Rounding with its sign: for a non-zero `m` and an exact value `(m + δ) * 2^e` below
`2^1023` the result is finite and within the error bound of the signed exact value. -/
theorem round_signed_spec (neg : Bool) (m : Nat) (e : Int) (sticky : Bool) (δ : ℝ)
    (hm : m ≠ 0) (hδ0 : 0 ≤ δ) (hδ1 : δ < 1) (hst : sticky = false → δ = 0)
    (hb : δ = 0 ∨ 54 ≤ bits m)
    (hX : ((m : ℝ) + δ) * (2 : ℝ) ^ e < (2 : ℝ) ^ (1023 : Int)) :
    isFinite (round neg m e sticky) = true ∧
      |toReal (round neg m e sticky) -
          (if neg then -1 else 1) * (((m : ℝ) + δ) * (2 : ℝ) ^ e)| ≤
        (2 : ℝ) ^ (-53 : Int) * max |(if neg then -1 else 1) * (((m : ℝ) + δ) * (2 : ℝ) ^ e)|
          ((2 : ℝ) ^ (-1022 : Int)) := by
  obtain ⟨q, e', hr, hq⟩ := round_spec neg m e sticky δ hm hδ0 hδ1 hst hb hX
  rw [hr, toReal_fin]
  refine ⟨rfl, ?_⟩
  have hpos : 0 ≤ ((m : ℝ) + δ) * (2 : ℝ) ^ e := by
    have := two_zpow_pos e
    positivity
  cases neg
  · simpa [abs_of_nonneg hpos] using hq
  · have h1 : (if true = true then (-1 : ℝ) else 1) * (q : ℝ) * (2 : ℝ) ^ e' -
        (if true = true then (-1 : ℝ) else 1) * (((m : ℝ) + δ) * (2 : ℝ) ^ e)
        = -((q : ℝ) * (2 : ℝ) ^ e' - ((m : ℝ) + δ) * (2 : ℝ) ^ e) := by
      simp only [if_true]; ring
    rw [h1, abs_neg]
    simpa [abs_of_nonneg hpos] using hq

/-- Rounding an exact value `m * 2^e` below `2^1023`, with its sign: the result is finite and
within the error bound of the signed value. -/
theorem round_exact_spec (neg : Bool) (m : Nat) (e : Int)
    (hX : (m : ℝ) * (2 : ℝ) ^ e < (2 : ℝ) ^ (1023 : Int)) :
    isFinite (round neg m e false) = true ∧
      |toReal (round neg m e false) - (if neg then -1 else 1) * ((m : ℝ) * (2 : ℝ) ^ e)| ≤
        (2 : ℝ) ^ (-53 : Int) * max |(if neg then -1 else 1) * ((m : ℝ) * (2 : ℝ) ^ e)|
          ((2 : ℝ) ^ (-1022 : Int)) := by
  by_cases hm : m = 0
  · subst hm
    have : round neg 0 e false = zero neg := by simp [round]
    rw [this, toReal_zero]
    refine ⟨rfl, ?_⟩
    simp only [Nat.cast_zero, zero_mul, mul_zero, sub_self, abs_zero]
    simpa using err_nonneg 0
  · have hX' : ((m : ℝ) + 0) * (2 : ℝ) ^ e < (2 : ℝ) ^ (1023 : Int) := by simpa using hX
    have := round_signed_spec neg m e false 0 hm le_rfl (by norm_num) (fun _ => rfl)
      (Or.inl rfl) hX'
    simpa using this

/-- A product of finite values whose exact value is below `2^1023` in magnitude is finite and
within the error bound of the exact product. -/
theorem mul_spec (a b : Dbl) (ha : isFinite a = true) (hb : isFinite b = true)
    (hX : |toReal a * toReal b| < (2 : ℝ) ^ (1023 : Int)) :
    isFinite (a * b) = true ∧
      |toReal (a * b) - toReal a * toReal b| ≤
        (2 : ℝ) ^ (-53 : Int) * max |toReal a * toReal b| ((2 : ℝ) ^ (-1022 : Int)) := by
  cases a with
  | nan => simp [isFinite] at ha
  | inf s => simp [isFinite] at ha
  | fin s m e =>
    cases b with
    | nan => simp [isFinite] at hb
    | inf t => simp [isFinite] at hb
    | fin t n f =>
      have hprod : toReal (fin s m e) * toReal (fin t n f) =
          (if xor s t then -1 else 1) * (((m * n : Nat) : ℝ) * (2 : ℝ) ^ (e + f)) := by
        rw [toReal_fin, toReal_fin, two_zpow_add]
        cases s <;> cases t <;> simp <;> ring
      rw [hprod] at hX ⊢
      have hpos : 0 ≤ ((m * n : Nat) : ℝ) * (2 : ℝ) ^ (e + f) := by
        have := two_zpow_pos (e + f)
        positivity
      have hX' : ((m * n : Nat) : ℝ) * (2 : ℝ) ^ (e + f) < (2 : ℝ) ^ (1023 : Int) := by
        have habs : |(if xor s t then (-1 : ℝ) else 1) *
            (((m * n : Nat) : ℝ) * (2 : ℝ) ^ (e + f))| = ((m * n : Nat) : ℝ) * (2 : ℝ) ^ (e + f) := by
          cases (xor s t)
          · simp only [Bool.false_eq_true, if_false, one_mul, abs_of_nonneg hpos]
          · simp only [if_true, neg_one_mul, abs_neg, abs_of_nonneg hpos]
        rw [habs] at hX
        exact hX
      exact round_exact_spec (xor s t) (m * n) (e + f) hX'


/-- The integer that `add` aligns a finite operand to, read at the common exponent, is the
operand's value. -/
theorem aligned_value (s : Bool) (m : Nat) (e k : Int) (hk : k ≤ e) :
    (((if s then -1 else 1) * ((m * 2 ^ (e - k).toNat : Nat) : Int) : Int) : ℝ) * (2 : ℝ) ^ k
      = toReal (fin s m e) := by
  rw [toReal_fin]
  obtain ⟨j, hj⟩ : ∃ j : Nat, (e - k).toNat = j := ⟨_, rfl⟩
  have hjz : e = (j : Int) + k := by omega
  rw [hj, hjz, two_zpow_add, zpow_natCast]
  cases s <;> simp <;> ring

/-- A sum of finite values whose exact value is below `2^1023` in magnitude is finite and
within the error bound of the exact sum. -/
theorem add_spec (a b : Dbl) (ha : isFinite a = true) (hb : isFinite b = true)
    (hX : |toReal a + toReal b| < (2 : ℝ) ^ (1023 : Int)) :
    isFinite (a + b) = true ∧
      |toReal (a + b) - (toReal a + toReal b)| ≤
        (2 : ℝ) ^ (-53 : Int) * max |toReal a + toReal b| ((2 : ℝ) ^ (-1022 : Int)) := by
  cases a with
  | nan => simp [isFinite] at ha
  | inf s => simp [isFinite] at ha
  | fin s m e =>
    cases b with
    | nan => simp [isFinite] at hb
    | inf t => simp [isFinite] at hb
    | fin t n f =>
      have hA := aligned_value s m e (min e f) (min_le_left _ _)
      have hB := aligned_value t n f (min e f) (min_le_right _ _)
      generalize hz : ((if s then -1 else 1) * ((m * 2 ^ (e - min e f).toNat : Nat) : Int) +
        (if t then -1 else 1) * ((n * 2 ^ (f - min e f).toNat : Nat) : Int) : Int) = z
      have hdef : fin s m e + fin t n f =
          if z = 0 then zero (s && t) else round (decide (z < 0)) z.natAbs (min e f) false := by
        rw [← hz]; rfl
      have hsum : toReal (fin s m e) + toReal (fin t n f) = (z : ℝ) * (2 : ℝ) ^ (min e f) := by
        rw [← hA, ← hB, ← hz]
        push_cast
        ring
      rw [hsum] at hX
      rw [hdef, hsum]
      by_cases h0 : z = 0
      · rw [if_pos h0, toReal_zero, h0]
        refine ⟨rfl, ?_⟩
        simp only [Int.cast_zero, zero_mul, sub_self, abs_zero]
        simpa using err_nonneg 0
      · rw [if_neg h0]
        have hp := two_zpow_pos (min e f)
        have hnat : ((z.natAbs : Nat) : ℝ) = |(z : ℝ)| := by
          rw [Nat.cast_natAbs, Int.cast_abs]
        have hX' : ((z.natAbs : Nat) : ℝ) * (2 : ℝ) ^ (min e f) < (2 : ℝ) ^ (1023 : Int) := by
          rw [hnat]
          rwa [abs_mul, abs_of_pos hp] at hX
        have hsgn : (if decide (z < 0) = true then (-1 : ℝ) else 1) *
            (((z.natAbs : Nat) : ℝ) * (2 : ℝ) ^ (min e f)) = (z : ℝ) * (2 : ℝ) ^ (min e f) := by
          rw [hnat]
          by_cases hneg : z < 0
          · have : (z : ℝ) < 0 := by exact_mod_cast hneg
            simp only [hneg, decide_True, if_true, abs_of_neg this]
            ring
          · have : (0 : ℝ) ≤ (z : ℝ) := by exact_mod_cast (not_lt.mp hneg)
            simp only [hneg, decide_False, Bool.false_eq_true, if_false, abs_of_nonneg this]
            ring
        have := round_exact_spec (decide (z < 0)) z.natAbs (min e f) hX'
        rw [hsgn] at this
        exact this


/-- A number of at least `j + 1` binary digits: `2^j ≤ n` gives `j + 1 ≤ bits n`. -/
theorem le_bits_of_pow_le (n j : Nat) (h : 2 ^ j ≤ n) : j + 1 ≤ bits n := by
  have hn : n ≠ 0 := by
    have : 0 < 2 ^ j := by positivity
    omega
  have hi := (bits_spec n hn).2
  have : 2 ^ j < 2 ^ bits n := lt_of_le_of_lt h hi
  have := (Nat.pow_lt_pow_iff_right (by norm_num : 1 < 2)).mp this
  omega

/-- A quotient of finite values by a non-zero one, whose exact value is below `2^1023` in
magnitude, is finite and within the error bound of the exact quotient. -/
theorem div_spec (a b : Dbl) (ha : isFinite a = true) (hb : isFinite b = true)
    (hb0 : toReal b ≠ 0) (hX : |toReal a / toReal b| < (2 : ℝ) ^ (1023 : Int)) :
    isFinite (a / b) = true ∧
      |toReal (a / b) - toReal a / toReal b| ≤
        (2 : ℝ) ^ (-53 : Int) * max |toReal a / toReal b| ((2 : ℝ) ^ (-1022 : Int)) := by
  cases a with
  | nan => simp [isFinite] at ha
  | inf s => simp [isFinite] at ha
  | fin s m e =>
    cases b with
    | nan => simp [isFinite] at hb
    | inf t => simp [isFinite] at hb
    | fin t n f =>
      have hn : n ≠ 0 := by
        intro h
        apply hb0
        rw [toReal_fin, h]
        simp
      have hnr : (0 : ℝ) < (n : ℝ) := by exact_mod_cast Nat.pos_of_ne_zero hn
      generalize hk : bits n + 64 = k
      have hdef : fin s m e / fin t n f =
          round (xor s t) (m * 2 ^ k / n) (e - f - k) (decide (m * 2 ^ k % n ≠ 0)) := by
        show div _ _ = _
        simp only [div, hn, if_false, hk]
      have hpk : (0 : ℝ) < (2 : ℝ) ^ (e - f - (k : Int)) := two_zpow_pos _
      -- the exact quotient, as quotient and remainder of the scaled integers
      have hdm : n * (m * 2 ^ k / n) + m * 2 ^ k % n = m * 2 ^ k := Nat.div_add_mod _ _
      have hdmr : (n : ℝ) * ((m * 2 ^ k / n : Nat) : ℝ) + ((m * 2 ^ k % n : Nat) : ℝ)
          = (m : ℝ) * (2 : ℝ) ^ (k : Int) := by
        have := congrArg (fun x : Nat => (x : ℝ)) hdm
        rw [zpow_natCast]
        simpa using this
      have hquot : toReal (fin s m e) / toReal (fin t n f) =
          (if xor s t then -1 else 1) *
            ((((m * 2 ^ k / n : Nat) : ℝ) + ((m * 2 ^ k % n : Nat) : ℝ) / (n : ℝ)) *
              (2 : ℝ) ^ (e - f - (k : Int))) := by
        have h2 : (2 : ℝ) ^ e = (2 : ℝ) ^ (e - f - (k : Int)) * (2 : ℝ) ^ (k : Int) * (2 : ℝ) ^ f := by
          rw [← two_zpow_add, ← two_zpow_add]; congr 1; ring
        have hpf := two_zpow_pos f
        have : (((m * 2 ^ k / n : Nat) : ℝ) + ((m * 2 ^ k % n : Nat) : ℝ) / (n : ℝ))
            = (m : ℝ) * (2 : ℝ) ^ (k : Int) / (n : ℝ) := by
          rw [← hdmr]; field_simp; ring
        rw [this, toReal_fin, toReal_fin, h2]
        cases s <;> cases t <;> simp <;> field_simp <;> ring
      rw [hdef, hquot]
      rw [hquot] at hX
      by_cases hm : m = 0
      · subst hm
        have h0 : round (xor s t) (0 * 2 ^ k / n) (e - f - k) (decide (0 * 2 ^ k % n ≠ 0))
            = zero (xor s t) := by simp [round]
        rw [h0, toReal_zero]
        refine ⟨rfl, ?_⟩
        simp only [zero_mul, Nat.zero_div, Nat.zero_mod, Nat.cast_zero, zero_div, add_zero,
          mul_zero, sub_self, abs_zero]
        simpa using err_nonneg 0
      · -- the quotient has at least 65 bits
        have hQ : 2 ^ 64 ≤ m * 2 ^ k / n := by
          rw [Nat.le_div_iff_mul_le (Nat.pos_of_ne_zero hn)]
          have hn2 := (bits_spec n hn).2
          calc 2 ^ 64 * n ≤ 2 ^ 64 * 2 ^ bits n := Nat.mul_le_mul_left _ hn2.le
            _ = 2 ^ k := by rw [← pow_add, ← hk]; congr 1; omega
            _ ≤ m * 2 ^ k := Nat.le_mul_of_pos_left _ (Nat.pos_of_ne_zero hm)
        have hQ0 : m * 2 ^ k / n ≠ 0 := by
          have : 0 < 2 ^ 64 := by positivity
          omega
        have hbits := le_bits_of_pow_le _ _ hQ
        have hrem : m * 2 ^ k % n < n := Nat.mod_lt _ (Nat.pos_of_ne_zero hn)
        have hδ0 : (0 : ℝ) ≤ ((m * 2 ^ k % n : Nat) : ℝ) / (n : ℝ) := by positivity
        have hδ1 : ((m * 2 ^ k % n : Nat) : ℝ) / (n : ℝ) < 1 := by
          rw [div_lt_one hnr]
          exact_mod_cast hrem
        have hst : decide (m * 2 ^ k % n ≠ 0) = false →
            ((m * 2 ^ k % n : Nat) : ℝ) / (n : ℝ) = 0 := by
          intro h
          have : m * 2 ^ k % n = 0 := by simpa using h
          rw [this]; simp
        have hpos : 0 ≤ (((m * 2 ^ k / n : Nat) : ℝ) + ((m * 2 ^ k % n : Nat) : ℝ) / (n : ℝ)) *
            (2 : ℝ) ^ (e - f - (k : Int)) := by positivity
        have hX' : (((m * 2 ^ k / n : Nat) : ℝ) + ((m * 2 ^ k % n : Nat) : ℝ) / (n : ℝ)) *
            (2 : ℝ) ^ (e - f - (k : Int)) < (2 : ℝ) ^ (1023 : Int) := by
          cases hx : (xor s t)
          · rw [hx] at hX
            simpa [abs_of_nonneg hpos] using hX
          · rw [hx] at hX
            simpa [abs_of_nonneg hpos] using hX
        exact round_signed_spec (xor s t) (m * 2 ^ k / n) (e - f - k)
          (decide (m * 2 ^ k % n ≠ 0)) _ hQ0 hδ0 hδ1 hst (Or.inr (by omega)) hX'

/-- A square root of a positive finite value, when below `2^1023`, is finite and within the
error bound of the exact square root. -/
theorem sqrt_spec (a : Dbl) (ha : isFinite a = true) (hpos : 0 < toReal a)
    (hX : Real.sqrt (toReal a) < (2 : ℝ) ^ (1023 : Int)) :
    isFinite (sqrt a) = true ∧
      |toReal (sqrt a) - Real.sqrt (toReal a)| ≤
        (2 : ℝ) ^ (-53 : Int) * max |Real.sqrt (toReal a)| ((2 : ℝ) ^ (-1022 : Int)) := by
  cases a with
  | nan => simp [isFinite] at ha
  | inf s => simp [isFinite] at ha
  | fin s m e =>
    rw [toReal_fin] at hpos
    have hpe := two_zpow_pos e
    have hm : m ≠ 0 := by
      intro h
      rw [h] at hpos
      simp at hpos
    have hmr : (0 : ℝ) < (m : ℝ) := by exact_mod_cast Nat.pos_of_ne_zero hm
    have hs : s = false := by
      cases s
      · rfl
      · exfalso
        simp only [if_true] at hpos
        have : (0 : ℝ) < (m : ℝ) * (2 : ℝ) ^ e := by positivity
        linarith
    subst hs
    have hA : toReal (fin false m e) = (m : ℝ) * (2 : ℝ) ^ e := by
      rw [toReal_fin]; simp
    rw [hA] at hX ⊢
    generalize hk : (if (e - 128) % 2 = 0 then 128 else 129 : Nat) = k
    have hk1 : 128 ≤ k := by rw [← hk]; split <;> omega
    have hkeven : (e - (k : Int)) % 2 = 0 := by
      rw [← hk]; split <;> omega
    obtain ⟨h, hh⟩ : ∃ h : Int, (e - (k : Int)) / 2 = h := ⟨_, rfl⟩
    have heh : e - (k : Int) = h + h := by omega
    have hdef : sqrt (fin false m e) =
        round false (isqrt (m * 2 ^ k)) h
          (decide (isqrt (m * 2 ^ k) * isqrt (m * 2 ^ k) ≠ m * 2 ^ k)) := by
      simp only [sqrt, hm, if_false, Bool.false_eq_true, hk, hh]
    obtain ⟨hr1, hr2⟩ := isqrt_spec (m * 2 ^ k)
    generalize isqrt (m * 2 ^ k) = r at hdef hr1 hr2
    -- the exact root of the scaled integer
    have hM : ((m * 2 ^ k : Nat) : ℝ) = (m : ℝ) * (2 : ℝ) ^ (k : Int) := by
      rw [zpow_natCast]; push_cast; ring
    have hMpos : (0 : ℝ) ≤ ((m * 2 ^ k : Nat) : ℝ) := Nat.cast_nonneg _
    have hr1r : (r : ℝ) * (r : ℝ) ≤ ((m * 2 ^ k : Nat) : ℝ) := by exact_mod_cast hr1
    have hr2r : ((m * 2 ^ k : Nat) : ℝ) < ((r : ℝ) + 1) * ((r : ℝ) + 1) := by exact_mod_cast hr2
    have hr0 : (0 : ℝ) ≤ (r : ℝ) := Nat.cast_nonneg _
    have hlow : (r : ℝ) ≤ Real.sqrt ((m * 2 ^ k : Nat) : ℝ) := by
      apply Real.le_sqrt_of_sq_le
      rw [sq]; exact hr1r
    have hupp : Real.sqrt ((m * 2 ^ k : Nat) : ℝ) < (r : ℝ) + 1 := by
      rw [Real.sqrt_lt' (by linarith)]
      rw [sq]; exact hr2r
    have hph := two_zpow_pos h
    have hval : Real.sqrt ((m : ℝ) * (2 : ℝ) ^ e) =
        ((r : ℝ) + (Real.sqrt ((m * 2 ^ k : Nat) : ℝ) - (r : ℝ))) * (2 : ℝ) ^ h := by
      have h1 : (m : ℝ) * (2 : ℝ) ^ e = ((m * 2 ^ k : Nat) : ℝ) * ((2 : ℝ) ^ h) ^ 2 := by
        rw [hM, sq, ← two_zpow_add, mul_assoc, ← two_zpow_add]
        congr 2
        omega
      rw [h1, Real.sqrt_mul hMpos, Real.sqrt_sq hph.le]
      ring
    rw [hdef, hval]
    rw [hval] at hX
    -- the integer root has at least 65 bits
    have hr64 : 2 ^ 64 ≤ r := by
      by_contra hlt
      have h1 : r + 1 ≤ 2 ^ 64 := by omega
      have h2 : (r + 1) * (r + 1) ≤ 2 ^ 64 * 2 ^ 64 := Nat.mul_le_mul h1 h1
      have h3 : 2 ^ 128 ≤ m * 2 ^ k := by
        calc 2 ^ 128 ≤ 2 ^ k := Nat.pow_le_pow_right (by norm_num) hk1
          _ ≤ m * 2 ^ k := Nat.le_mul_of_pos_left _ (Nat.pos_of_ne_zero hm)
      have h4 : (2 : Nat) ^ 64 * 2 ^ 64 = 2 ^ 128 := by norm_num
      omega
    have hrne : r ≠ 0 := by
      have : 0 < 2 ^ 64 := by positivity
      omega
    have hbits := le_bits_of_pow_le _ _ hr64
    have hst : decide (r * r ≠ m * 2 ^ k) = false →
        Real.sqrt ((m * 2 ^ k : Nat) : ℝ) - (r : ℝ) = 0 := by
      intro hd
      have : r * r = m * 2 ^ k := by simpa using hd
      rw [← this]
      push_cast
      rw [Real.sqrt_mul_self hr0]
      ring
    have := round_signed_spec false r h (decide (r * r ≠ m * 2 ^ k))
      (Real.sqrt ((m * 2 ^ k : Nat) : ℝ) - (r : ℝ)) hrne (by linarith) (by linarith) hst
      (Or.inr (by omega)) hX
    simpa using this

/-- The unit roundoff `2^-53` as a fraction. -/
theorem u_eq : (2 : ℝ) ^ (-53 : Int) = 1 / 9007199254740992 := by norm_num

/-- The bound `2^1023` is `2 * 2^1022`. -/
theorem two_pow_1023_eq : (2 : ℝ) ^ (1023 : Int) = 2 * (2 : ℝ) ^ (1022 : Int) := by
  rw [show (1023 : Int) = 1 + 1022 by norm_num, two_zpow_add]; norm_num

/-- Multiplying by `t` and dividing by `t` again returns `x` up to two roundings, as long as
neither `x` nor the product `t * x` leaves the range of the normal `double`s. -/
theorem mul_div_cancel_approx (x t : Dbl) (hx : isFinite x = true) (ht : isFinite t = true)
    (hX1 : (2 : ℝ) ^ (-1022 : Int) ≤ |toReal x|) (hX2 : |toReal x| ≤ (2 : ℝ) ^ (1022 : Int))
    (hP1 : (2 : ℝ) ^ (-1022 : Int) ≤ |toReal t * toReal x|)
    (hP2 : |toReal t * toReal x| < (2 : ℝ) ^ (1023 : Int)) :
    isFinite (t * x / t) = true ∧
      |toReal (t * x / t) - toReal x| ≤ 3 * (2 : ℝ) ^ (-53 : Int) * |toReal x| := by
  obtain ⟨hf1, he1⟩ := mul_spec t x ht hx hP2
  rw [max_eq_left hP1] at he1
  have hη := two_zpow_pos (-1022)
  have hT : toReal t ≠ 0 := by
    intro h
    rw [h, zero_mul, abs_zero] at hP1
    linarith
  have hTa : 0 < |toReal t| := abs_pos.mpr hT
  -- the exact quotient of the rounded product
  have hq : |toReal (t * x) / toReal t - toReal x| ≤ (2 : ℝ) ^ (-53 : Int) * |toReal x| := by
    have : toReal (t * x) / toReal t - toReal x
        = (toReal (t * x) - toReal t * toReal x) / toReal t := by
      field_simp
    rw [this, abs_div, div_le_iff₀ hTa]
    calc |toReal (t * x) - toReal t * toReal x|
        ≤ (2 : ℝ) ^ (-53 : Int) * |toReal t * toReal x| := he1
      _ = (2 : ℝ) ^ (-53 : Int) * |toReal x| * |toReal t| := by rw [abs_mul]; ring
  rw [u_eq] at hq he1 ⊢
  have hXa : 0 ≤ |toReal x| := abs_nonneg _
  have hqa : |toReal (t * x) / toReal t| ≤ (1 + 1 / 9007199254740992) * |toReal x| := by
    have h1 := abs_sub_abs_le_abs_sub (toReal (t * x) / toReal t) (toReal x)
    linarith
  have hqa2 : |toReal x| - 1 / 9007199254740992 * |toReal x| ≤ |toReal (t * x) / toReal t| := by
    have h1 := abs_sub_abs_le_abs_sub (toReal x) (toReal (t * x) / toReal t)
    rw [abs_sub_comm] at h1
    linarith
  have hlt : |toReal (t * x) / toReal t| < (2 : ℝ) ^ (1023 : Int) := by
    rw [two_pow_1023_eq]
    have := two_zpow_pos 1022
    linarith
  obtain ⟨hf2, he2⟩ := div_spec (t * x) t hf1 ht hT hlt
  refine ⟨hf2, ?_⟩
  rw [u_eq] at he2
  have hmax : max |toReal (t * x) / toReal t| ((2 : ℝ) ^ (-1022 : Int))
      ≤ (1 + 1 / 9007199254740992) * |toReal x| := by
    apply max_le hqa
    exact le_trans hX1 (by linarith)
  have he3 : |toReal (t * x / t) - toReal (t * x) / toReal t| ≤
      1 / 9007199254740992 * ((1 + 1 / 9007199254740992) * |toReal x|) :=
    le_trans he2 (mul_le_mul_of_nonneg_left hmax (by norm_num))
  have htri : |toReal (t * x / t) - toReal x| ≤
      |toReal (t * x / t) - toReal (t * x) / toReal t| +
        |toReal (t * x) / toReal t - toReal x| := abs_sub_le _ _ _
  linarith

/-- The bound `2^1023` is `8 * 2^1020`. -/
theorem two_pow_1023_eq8 : (2 : ℝ) ^ (1023 : Int) = 8 * (2 : ℝ) ^ (1020 : Int) := by
  rw [show (1023 : Int) = 3 + 1020 by norm_num, two_zpow_add]; norm_num

/-- The bound `2^-1020` is `4 * 2^-1022`. -/
theorem two_pow_m1020_eq : (2 : ℝ) ^ (-1020 : Int) = 4 * (2 : ℝ) ^ (-1022 : Int) := by
  rw [show (-1020 : Int) = 2 + -1022 by norm_num, two_zpow_add]; norm_num

/-- One rounding, in linear form: a value within the error bound of a non-negative `X ≤ B`
is within `2^-53 * (B + 2^-1022)` of it. -/
theorem err_le_add (c X B : ℝ) (hX : |X| ≤ B)
    (h : |c - X| ≤ (2 : ℝ) ^ (-53 : Int) * max |X| ((2 : ℝ) ^ (-1022 : Int))) :
    |c - X| ≤ 1 / 9007199254740992 * (B + (2 : ℝ) ^ (-1022 : Int)) := by
  rw [u_eq] at h
  have hη := two_zpow_pos (-1022)
  have : max |X| ((2 : ℝ) ^ (-1022 : Int)) ≤ B + (2 : ℝ) ^ (-1022 : Int) := by
    apply max_le
    · linarith
    · linarith [abs_nonneg X]
  exact le_trans h (mul_le_mul_of_nonneg_left this (by norm_num))

/-- The sum of three squares as the code computes it, `(x0*x0 + x1*x1) + x2*x2`, is finite and
within `5 * 2^-53` (relative) of the exact sum, when the exact sum is in `[2^-1020, 2^1020]`. -/
theorem sum_sq_spec (x0 x1 x2 : Dbl) (h0 : isFinite x0 = true) (h1 : isFinite x1 = true)
    (h2 : isFinite x2 = true)
    (hlo : (2 : ℝ) ^ (-1020 : Int) ≤
      toReal x0 * toReal x0 + toReal x1 * toReal x1 + toReal x2 * toReal x2)
    (hhi : toReal x0 * toReal x0 + toReal x1 * toReal x1 + toReal x2 * toReal x2
      ≤ (2 : ℝ) ^ (1020 : Int)) :
    isFinite (x0 * x0 + x1 * x1 + x2 * x2) = true ∧
      |toReal (x0 * x0 + x1 * x1 + x2 * x2) -
          (toReal x0 * toReal x0 + toReal x1 * toReal x1 + toReal x2 * toReal x2)| ≤
        5 * (2 : ℝ) ^ (-53 : Int) *
          (toReal x0 * toReal x0 + toReal x1 * toReal x1 + toReal x2 * toReal x2) := by
  have hη := two_zpow_pos (-1022)
  have hB := two_zpow_pos 1020
  rw [two_pow_m1020_eq] at hlo
  have hq0 := mul_self_nonneg (toReal x0)
  have hq1 := mul_self_nonneg (toReal x1)
  have hq2 := mul_self_nonneg (toReal x2)
  generalize hη' : (2 : ℝ) ^ (-1022 : Int) = η at *
  generalize hB' : (2 : ℝ) ^ (1020 : Int) = B at *
  have hlim : (2 : ℝ) ^ (1023 : Int) = 8 * B := by rw [← hB']; exact two_pow_1023_eq8
  -- the three squares
  have hsq : ∀ x : Dbl, isFinite x = true → toReal x * toReal x ≤ B →
      isFinite (x * x) = true ∧
        |toReal (x * x) - toReal x * toReal x| ≤
          1 / 9007199254740992 * (toReal x * toReal x + η) := by
    intro x hx hxB
    have habs : |toReal x * toReal x| = toReal x * toReal x := abs_of_nonneg (mul_self_nonneg _)
    have hlt : |toReal x * toReal x| < (2 : ℝ) ^ (1023 : Int) := by
      rw [habs, hlim]; linarith
    obtain ⟨hf, he⟩ := mul_spec x x hx hx hlt
    rw [hη'] at he
    refine ⟨hf, ?_⟩
    have := err_le_add (toReal (x * x)) (toReal x * toReal x) (toReal x * toReal x)
      (le_of_eq habs) (by rw [hη']; exact he)
    rw [hη'] at this
    exact this
  obtain ⟨f0, e0⟩ := hsq x0 h0 (by linarith)
  obtain ⟨f1, e1⟩ := hsq x1 h1 (by linarith)
  obtain ⟨f2, e2⟩ := hsq x2 h2 (by linarith)
  generalize toReal x0 * toReal x0 = q0 at *
  generalize toReal x1 * toReal x1 = q1 at *
  generalize toReal x2 * toReal x2 = q2 at *
  rw [abs_le] at e0 e1 e2
  -- the first sum
  have hs01 : |toReal (x0 * x0) + toReal (x1 * x1)| ≤
      (1 + 1 / 9007199254740992) * (q0 + q1) + 2 / 9007199254740992 * η := by
    rw [abs_le]; constructor <;> linarith
  have hlt01 : |toReal (x0 * x0) + toReal (x1 * x1)| < (2 : ℝ) ^ (1023 : Int) := by
    rw [hlim]; linarith
  obtain ⟨fa, ea⟩ := add_spec (x0 * x0) (x1 * x1) f0 f1 hlt01
  have ea' := err_le_add _ _ _ hs01 ea
  rw [hη', abs_le] at ea'
  -- the second sum
  have hs2 : |toReal (x0 * x0 + x1 * x1) + toReal (x2 * x2)| ≤
      (1 + 3 / 9007199254740992) * (q0 + q1 + q2) + 4 / 9007199254740992 * η := by
    rw [abs_le]; constructor <;> linarith
  have hlt2 : |toReal (x0 * x0 + x1 * x1) + toReal (x2 * x2)| < (2 : ℝ) ^ (1023 : Int) := by
    rw [hlim]; linarith
  obtain ⟨fb, eb⟩ := add_spec (x0 * x0 + x1 * x1) (x2 * x2) fa f2 hlt2
  have eb' := err_le_add _ _ _ hs2 eb
  rw [hη', abs_le] at eb'
  refine ⟨fb, ?_⟩
  rw [u_eq, abs_le]
  constructor <;> linarith

/-- Square roots of close values are close: a relative distance `ε` between `S'` and `S`
gives at most the relative distance `ε` between their square roots. -/
theorem sqrt_close (S S' ε : ℝ) (hS : 0 < S) (hS' : 0 ≤ S') (h : |S' - S| ≤ ε * S) :
    |Real.sqrt S' - Real.sqrt S| ≤ ε * Real.sqrt S := by
  have hb : 0 < Real.sqrt S := Real.sqrt_pos.mpr hS
  have ha : 0 ≤ Real.sqrt S' := Real.sqrt_nonneg _
  have hbb : Real.sqrt S * Real.sqrt S = S := Real.mul_self_sqrt hS.le
  have haa : Real.sqrt S' * Real.sqrt S' = S' := Real.mul_self_sqrt hS'
  apply le_of_mul_le_mul_right _ hb
  have h1 : |Real.sqrt S' - Real.sqrt S| * (Real.sqrt S' + Real.sqrt S) = |S' - S| := by
    rw [← abs_of_nonneg (by linarith : 0 ≤ Real.sqrt S' + Real.sqrt S), ← abs_mul]
    congr 1
    nlinarith
  have h2 : |Real.sqrt S' - Real.sqrt S| * Real.sqrt S ≤
      |Real.sqrt S' - Real.sqrt S| * (Real.sqrt S' + Real.sqrt S) :=
    mul_le_mul_of_nonneg_left (by linarith) (abs_nonneg _)
  calc |Real.sqrt S' - Real.sqrt S| * Real.sqrt S ≤ |S' - S| := by rw [← h1]; exact h2
    _ ≤ ε * S := h
    _ = ε * Real.sqrt S * Real.sqrt S := by rw [mul_assoc, hbb]

/-- The least normal magnitude `2^-1022` is at most `1`. -/
theorem eta_le_one : (2 : ℝ) ^ (-1022 : Int) ≤ 1 := by
  have : (2 : ℝ) ^ (-1022 : Int) ≤ (2 : ℝ) ^ (0 : Int) :=
    zpow_le_zpow_right₀ (by norm_num) (by norm_num)
  simpa using this

/-- The bound `2^1020` is at least `1`. -/
theorem one_le_two_pow_1020 : (1 : ℝ) ≤ (2 : ℝ) ^ (1020 : Int) := by
  have : (2 : ℝ) ^ (0 : Int) ≤ (2 : ℝ) ^ (1020 : Int) :=
    zpow_le_zpow_right₀ (by norm_num) (by norm_num)
  simpa using this

/-- The length as the code computes it, `sqrt((x0*x0 + x1*x1) + x2*x2)`, is finite and within
`7 * 2^-53` (relative) of the exact Euclidean norm, when the exact squared length is in
`[2^-1020, 2^1020]`. -/
theorem sqrt_sum_sq_spec (x0 x1 x2 : Dbl) (h0 : isFinite x0 = true) (h1 : isFinite x1 = true)
    (h2 : isFinite x2 = true)
    (hlo : (2 : ℝ) ^ (-1020 : Int) ≤
      toReal x0 * toReal x0 + toReal x1 * toReal x1 + toReal x2 * toReal x2)
    (hhi : toReal x0 * toReal x0 + toReal x1 * toReal x1 + toReal x2 * toReal x2
      ≤ (2 : ℝ) ^ (1020 : Int)) :
    isFinite (sqrt (x0 * x0 + x1 * x1 + x2 * x2)) = true ∧
      |toReal (sqrt (x0 * x0 + x1 * x1 + x2 * x2)) -
          Real.sqrt (toReal x0 * toReal x0 + toReal x1 * toReal x1 + toReal x2 * toReal x2)| ≤
        7 * (2 : ℝ) ^ (-53 : Int) *
          Real.sqrt (toReal x0 * toReal x0 + toReal x1 * toReal x1 + toReal x2 * toReal x2) := by
  obtain ⟨hf, he⟩ := sum_sq_spec x0 x1 x2 h0 h1 h2 hlo hhi
  have hη := two_zpow_pos (-1022)
  have hη1 := eta_le_one
  have hB1 := one_le_two_pow_1020
  rw [two_pow_m1020_eq] at hlo
  generalize toReal x0 * toReal x0 + toReal x1 * toReal x1 + toReal x2 * toReal x2 = S at *
  generalize hSdef : toReal (x0 * x0 + x1 * x1 + x2 * x2) = S' at *
  have hS : 0 < S := by linarith
  rw [u_eq] at he ⊢
  have he' := abs_le.mp he
  have hS'lo : (1 - 5 / 9007199254740992) * S ≤ S' := by linarith
  have hS'hi : S' ≤ (1 + 5 / 9007199254740992) * S := by linarith
  have hSpos : 0 < S' := by nlinarith
  have hclose := sqrt_close S S' (5 * (1 / 9007199254740992)) hS hSpos.le he
  have hρ : 0 < Real.sqrt S := Real.sqrt_pos.mpr hS
  have hρ' : 0 < Real.sqrt S' := Real.sqrt_pos.mpr hSpos
  -- no overflow
  have hlt : Real.sqrt S' < (2 : ℝ) ^ (1023 : Int) := by
    rw [Real.sqrt_lt' (two_zpow_pos 1023), two_pow_1023_eq8]
    nlinarith
  -- the root is a normal number
  have hge : (2 : ℝ) ^ (-1022 : Int) ≤ Real.sqrt S' := by
    apply Real.le_sqrt_of_sq_le
    nlinarith
  have hsp := sqrt_spec (x0 * x0 + x1 * x1 + x2 * x2) hf (by rw [hSdef]; exact hSpos)
    (by rw [hSdef]; exact hlt)
  rw [hSdef] at hsp
  obtain ⟨hf2, he2⟩ := hsp
  refine ⟨hf2, ?_⟩
  rw [abs_of_pos hρ', max_eq_left hge, u_eq] at he2
  have hc := abs_le.mp hclose
  have htri := abs_sub_le (toReal (sqrt (x0 * x0 + x1 * x1 + x2 * x2))) (Real.sqrt S')
    (Real.sqrt S)
  have : Real.sqrt S' ≤ (1 + 5 * (1 / 9007199254740992)) * Real.sqrt S := by linarith
  have h3 : 1 / 9007199254740992 * Real.sqrt S' ≤
      1 / 9007199254740992 * ((1 + 5 * (1 / 9007199254740992)) * Real.sqrt S) :=
    mul_le_mul_of_nonneg_left this (by norm_num)
  linarith

/-- The least normal magnitude `2^-1022` is at most `1/1024`. -/
theorem eta_le_small : (2 : ℝ) ^ (-1022 : Int) ≤ 1 / 1024 := by
  have : (2 : ℝ) ^ (-1022 : Int) ≤ (2 : ℝ) ^ (-10 : Int) :=
    zpow_le_zpow_right₀ (by norm_num) (by norm_num)
  have h2 : (2 : ℝ) ^ (-10 : Int) = 1 / 1024 := by norm_num
  linarith

/-- The bound `2^-1020` is at most `1/2`. -/
theorem two_pow_m1020_le : (2 : ℝ) ^ (-1020 : Int) ≤ 1 / 2 := by
  have : (2 : ℝ) ^ (-1020 : Int) ≤ (2 : ℝ) ^ (-1 : Int) :=
    zpow_le_zpow_right₀ (by norm_num) (by norm_num)
  have h2 : (2 : ℝ) ^ (-1 : Int) = 1 / 2 := by norm_num
  linarith

/-- The bound `2^1020` is at least `2`. -/
theorem two_le_two_pow_1020 : (2 : ℝ) ≤ (2 : ℝ) ^ (1020 : Int) := by
  have : (2 : ℝ) ^ (1 : Int) ≤ (2 : ℝ) ^ (1020 : Int) :=
    zpow_le_zpow_right₀ (by norm_num) (by norm_num)
  simpa using this

/-- The square of a rounded value against the square of the exact one. -/
theorem sq_close (U r η : ℝ) (hη0 : 0 ≤ η) (hη1 : η ≤ 1) (hr : |r| ≤ 2)
    (hd : |U - r| ≤ 1 / 9007199254740992 * (|r| + η)) :
    |U * U - r * r| ≤ 3 / 9007199254740992 * (r * r) + 5 / 9007199254740992 * η := by
  have ha := abs_nonneg r
  have haa : |r| * |r| = r * r := abs_mul_abs_self r
  have hsum : |U + r| ≤ 2 * |r| + 1 / 9007199254740992 * (|r| + η) := by
    have h1 : U + r = (U - r) + 2 * r := by ring
    have h2 : |2 * r| = 2 * |r| := by rw [abs_mul]; norm_num
    calc |U + r| = |(U - r) + 2 * r| := by rw [h1]
      _ ≤ |U - r| + |2 * r| := abs_add _ _
      _ ≤ 2 * |r| + 1 / 9007199254740992 * (|r| + η) := by rw [h2]; linarith
  have hprod : U * U - r * r = (U - r) * (U + r) := by ring
  rw [hprod, abs_mul]
  have hD0 : 0 ≤ 1 / 9007199254740992 * (|r| + η) := by positivity
  calc |U - r| * |U + r|
      ≤ (1 / 9007199254740992 * (|r| + η)) *
          (2 * |r| + 1 / 9007199254740992 * (|r| + η)) :=
        mul_le_mul hd hsum (abs_nonneg _) hD0
    _ ≤ 3 / 9007199254740992 * (r * r) + 5 / 9007199254740992 * η := by
        rw [← haa]
        nlinarith [mul_nonneg (sub_nonneg.mpr hr) hη0, mul_nonneg hη0 (sub_nonneg.mpr hη1),
          mul_nonneg ha ha, mul_nonneg ha hη0]

/-- A length within `7 * 2^-53` of `ρ` gives a ratio `ρ^2 / L^2` within `15 * 2^-53` of `1`. -/
theorem ratio_bounds (ρ L : ℝ) (hρ : 0 < ρ) (hL1 : (1 - 7 / 9007199254740992) * ρ ≤ L)
    (hL2 : L ≤ (1 + 7 / 9007199254740992) * ρ) :
    ρ * ρ / (L * L) ≤ 1 + 15 / 9007199254740992 ∧
      1 - 15 / 9007199254740992 ≤ ρ * ρ / (L * L) := by
  have hLpos : 0 < L := lt_of_lt_of_le (by positivity) hL1
  have hLL : 0 < L * L := mul_pos hLpos hLpos
  have hρ2 : 0 < ρ * ρ := mul_pos hρ hρ
  have hLL1 : (1 - 7 / 9007199254740992) * (1 - 7 / 9007199254740992) * (ρ * ρ) ≤ L * L := by
    have h := mul_self_le_mul_self (by positivity : 0 ≤ (1 - 7 / 9007199254740992) * ρ) hL1
    calc (1 - 7 / 9007199254740992) * (1 - 7 / 9007199254740992) * (ρ * ρ)
        = (1 - 7 / 9007199254740992) * ρ * ((1 - 7 / 9007199254740992) * ρ) := by ring
      _ ≤ L * L := h
  have hLL2 : L * L ≤ (1 + 7 / 9007199254740992) * (1 + 7 / 9007199254740992) * (ρ * ρ) := by
    have h := mul_self_le_mul_self hLpos.le hL2
    calc L * L ≤ (1 + 7 / 9007199254740992) * ρ * ((1 + 7 / 9007199254740992) * ρ) := h
      _ = (1 + 7 / 9007199254740992) * (1 + 7 / 9007199254740992) * (ρ * ρ) := by ring
  generalize ρ * ρ = S at *
  generalize L * L = M at *
  constructor
  · rw [div_le_iff₀ hLL]
    linarith
  · rw [le_div_iff₀ hLL]
    linarith

set_option maxHeartbeats 400000

/-- Dividing three finite values by their computed length and taking the computed length again
gives `1` up to `2^-48`, when the exact sum of the squares is in `[2^-1020, 2^1020]`. -/
theorem normalize_spec (x0 x1 x2 : Dbl) (h0 : isFinite x0 = true) (h1 : isFinite x1 = true)
    (h2 : isFinite x2 = true)
    (hlo : (2 : ℝ) ^ (-1020 : Int) ≤
      toReal x0 * toReal x0 + toReal x1 * toReal x1 + toReal x2 * toReal x2)
    (hhi : toReal x0 * toReal x0 + toReal x1 * toReal x1 + toReal x2 * toReal x2
      ≤ (2 : ℝ) ^ (1020 : Int)) :
    isFinite (sqrt (x0 / sqrt (x0 * x0 + x1 * x1 + x2 * x2) *
          (x0 / sqrt (x0 * x0 + x1 * x1 + x2 * x2)) +
        x1 / sqrt (x0 * x0 + x1 * x1 + x2 * x2) * (x1 / sqrt (x0 * x0 + x1 * x1 + x2 * x2)) +
        x2 / sqrt (x0 * x0 + x1 * x1 + x2 * x2) * (x2 / sqrt (x0 * x0 + x1 * x1 + x2 * x2))))
        = true ∧
      |toReal (sqrt (x0 / sqrt (x0 * x0 + x1 * x1 + x2 * x2) *
          (x0 / sqrt (x0 * x0 + x1 * x1 + x2 * x2)) +
        x1 / sqrt (x0 * x0 + x1 * x1 + x2 * x2) * (x1 / sqrt (x0 * x0 + x1 * x1 + x2 * x2)) +
        x2 / sqrt (x0 * x0 + x1 * x1 + x2 * x2) * (x2 / sqrt (x0 * x0 + x1 * x1 + x2 * x2)))) - 1|
        ≤ (2 : ℝ) ^ (-48 : Int) := by
  obtain ⟨hLf, hLe⟩ := sqrt_sum_sq_spec x0 x1 x2 h0 h1 h2 hlo hhi
  have hη := two_zpow_pos (-1022)
  have hηs := eta_le_small
  have hq0 := mul_self_nonneg (toReal x0)
  have hq1 := mul_self_nonneg (toReal x1)
  have hq2 := mul_self_nonneg (toReal x2)
  have hSpos : 0 < toReal x0 * toReal x0 + toReal x1 * toReal x1 + toReal x2 * toReal x2 :=
    lt_of_lt_of_le (two_zpow_pos _) hlo
  have hρ := Real.sqrt_pos.mpr hSpos
  have hρρ := Real.mul_self_sqrt hSpos.le
  -- each component is at most the norm
  have hc0 : |toReal x0| ≤ Real.sqrt
      (toReal x0 * toReal x0 + toReal x1 * toReal x1 + toReal x2 * toReal x2) :=
    Real.abs_le_sqrt (by nlinarith)
  have hc1 : |toReal x1| ≤ Real.sqrt
      (toReal x0 * toReal x0 + toReal x1 * toReal x1 + toReal x2 * toReal x2) :=
    Real.abs_le_sqrt (by nlinarith)
  have hc2 : |toReal x2| ≤ Real.sqrt
      (toReal x0 * toReal x0 + toReal x1 * toReal x1 + toReal x2 * toReal x2) :=
    Real.abs_le_sqrt (by nlinarith)
  generalize hLdef : sqrt (x0 * x0 + x1 * x1 + x2 * x2) = Ld at *
  generalize hρdef : Real.sqrt
    (toReal x0 * toReal x0 + toReal x1 * toReal x1 + toReal x2 * toReal x2) = ρ at *
  rw [u_eq] at hLe
  have hLe' := abs_le.mp hLe
  have hL1 : (1 - 7 / 9007199254740992) * ρ ≤ toReal Ld := by linarith
  have hL2 : toReal Ld ≤ (1 + 7 / 9007199254740992) * ρ := by linarith
  have hLpos : 0 < toReal Ld := by nlinarith
  have hLne : toReal Ld ≠ 0 := ne_of_gt hLpos
  -- the three quotients
  have hquot : ∀ x : Dbl, isFinite x = true → |toReal x| ≤ ρ →
      isFinite (x / Ld) = true ∧ |toReal x / toReal Ld| ≤ 2 ∧
        |toReal (x / Ld) - toReal x / toReal Ld| ≤
          1 / 9007199254740992 * (|toReal x / toReal Ld| + (2 : ℝ) ^ (-1022 : Int)) := by
    intro x hx hxρ
    have hr : |toReal x / toReal Ld| ≤ 2 := by
      rw [abs_div, abs_of_pos hLpos, div_le_iff₀ hLpos]
      nlinarith
    have hlt : |toReal x / toReal Ld| < (2 : ℝ) ^ (1023 : Int) := by
      have := two_le_two_pow_1020
      rw [two_pow_1023_eq8]
      linarith
    obtain ⟨hf, he⟩ := div_spec x Ld hx hLf hLne hlt
    exact ⟨hf, hr, err_le_add _ _ _ le_rfl he⟩
  obtain ⟨f0, r0, e0⟩ := hquot x0 h0 hc0
  obtain ⟨f1, r1, e1⟩ := hquot x1 h1 hc1
  obtain ⟨f2, r2, e2⟩ := hquot x2 h2 hc2
  -- the exact quotients have a sum of squares close to one
  have hsumr : toReal x0 / toReal Ld * (toReal x0 / toReal Ld) +
      toReal x1 / toReal Ld * (toReal x1 / toReal Ld) +
      toReal x2 / toReal Ld * (toReal x2 / toReal Ld) = ρ * ρ / (toReal Ld * toReal Ld) := by
    rw [hρρ]; field_simp
  obtain ⟨hg1, hg2⟩ := ratio_bounds ρ (toReal Ld) hρ hL1 hL2
  rw [← hsumr] at hg1 hg2
  -- the squares of the rounded quotients
  have s0 := sq_close _ _ _ hη.le eta_le_one r0 e0
  have s1 := sq_close _ _ _ hη.le eta_le_one r1 e1
  have s2 := sq_close _ _ _ hη.le eta_le_one r2 e2
  have hr0 := mul_self_nonneg (toReal x0 / toReal Ld)
  have hr1 := mul_self_nonneg (toReal x1 / toReal Ld)
  have hr2 := mul_self_nonneg (toReal x2 / toReal Ld)
  generalize toReal x0 / toReal Ld * (toReal x0 / toReal Ld) = a0 at *
  generalize toReal x1 / toReal Ld * (toReal x1 / toReal Ld) = a1 at *
  generalize toReal x2 / toReal Ld * (toReal x2 / toReal Ld) = a2 at *
  rw [abs_le] at s0 s1 s2
  have hT1 : toReal (x0 / Ld) * toReal (x0 / Ld) + toReal (x1 / Ld) * toReal (x1 / Ld) +
      toReal (x2 / Ld) * toReal (x2 / Ld) ≤ 1 + 19 / 9007199254740992 := by
    linarith
  have hT2 : 1 - 19 / 9007199254740992 ≤ toReal (x0 / Ld) * toReal (x0 / Ld) +
      toReal (x1 / Ld) * toReal (x1 / Ld) + toReal (x2 / Ld) * toReal (x2 / Ld) := by
    linarith
  -- the computed length of the quotients
  have hlo' : (2 : ℝ) ^ (-1020 : Int) ≤ toReal (x0 / Ld) * toReal (x0 / Ld) +
      toReal (x1 / Ld) * toReal (x1 / Ld) + toReal (x2 / Ld) * toReal (x2 / Ld) := by
    exact le_trans two_pow_m1020_le (le_trans (by norm_num) hT2)
  have hhi' : toReal (x0 / Ld) * toReal (x0 / Ld) + toReal (x1 / Ld) * toReal (x1 / Ld) +
      toReal (x2 / Ld) * toReal (x2 / Ld) ≤ (2 : ℝ) ^ (1020 : Int) := by
    exact le_trans hT1 (le_trans (by norm_num) two_le_two_pow_1020)
  obtain ⟨hRf, hRe⟩ := sqrt_sum_sq_spec (x0 / Ld) (x1 / Ld) (x2 / Ld) f0 f1 f2 hlo' hhi'
  refine ⟨hRf, ?_⟩
  generalize toReal (x0 / Ld) * toReal (x0 / Ld) + toReal (x1 / Ld) * toReal (x1 / Ld) +
      toReal (x2 / Ld) * toReal (x2 / Ld) = T at *
  have hTpos : 0 ≤ T := by linarith
  have hcl := sqrt_close 1 T (19 / 9007199254740992) (by norm_num) hTpos
    (by rw [abs_le]; constructor <;> linarith)
  rw [Real.sqrt_one] at hcl
  rw [u_eq] at hRe
  have hcl' := abs_le.mp hcl
  have hRe' := abs_le.mp hRe
  have h48 : (2 : ℝ) ^ (-48 : Int) = 1 / 281474976710656 := by norm_num
  rw [h48, abs_le]
  constructor <;> linarith

/-- The real value is the rational value read in `ℝ`. -/
theorem toReal_def (x : Dbl) : toReal x = ((toRat x : ℚ) : ℝ) := rfl

/-- A finite zero multiplied by a finite non-zero `t` and divided by `t` again is a zero. -/
theorem mul_div_cancel_zero (x t : Dbl) (hx : isFinite x = true) (ht : isFinite t = true)
    (hx0 : toRat x = 0) (ht0 : toRat t ≠ 0) :
    isFinite (t * x / t) = true ∧ toRat (t * x / t) = 0 := by
  cases x with
  | nan => simp [isFinite] at hx
  | inf s => simp [isFinite] at hx
  | fin s m e =>
    cases t with
    | nan => simp [isFinite] at ht
    | inf s' => simp [isFinite] at ht
    | fin s' n f =>
      have hn : n ≠ 0 := by
        intro h
        apply ht0
        simp [toRat, h]
      have hm : m = 0 := by
        have h2 : (2 : ℚ) ^ e ≠ 0 := zpow_ne_zero _ (by norm_num)
        cases s <;> simpa [toRat, h2] using hx0
      subst hm
      have h1 : fin s' n f * fin s 0 e = zero (xor s' s) := by
        show mul _ _ = _
        simp [mul, round]
      have h2 : zero (xor s' s) / fin s' n f = zero (xor (xor s' s) s') := by
        show div _ _ = _
        simp [div, zero, round, hn]
      rw [h1, h2]
      exact ⟨rfl, by simp [zero, toRat]⟩

end Dbl

namespace Dbl

/-- The power `2^-1022` as a fraction. -/
theorem zpow_m1022_eq : (2 : ℝ) ^ (-1022 : Int) = 1 / 2 ^ 1022 := by
  rw [zpow_neg, one_div]; rfl

/-- The power `2^1022` with a natural exponent. -/
theorem zpow_1022_eq : (2 : ℝ) ^ (1022 : Int) = 2 ^ 1022 := rfl

/-- The power `2^1023` with a natural exponent. -/
theorem zpow_1023_eq : (2 : ℝ) ^ (1023 : Int) = 2 ^ 1023 := rfl

/-- The power `2^-53` as a fraction. -/
theorem zpow_m53_eq : (2 : ℝ) ^ (-53 : Int) = 1 / 2 ^ 53 := by
  rw [zpow_neg, one_div]; rfl

/-- The tolerance of `mul_div_cancel_approx`, stated on the rational values. -/
theorem mul_div_cancel_rat (x t : Dbl) (hx : isFinite x = true) (ht : isFinite t = true)
    (ht0 : toRat t ≠ 0)
    (h : toRat x = 0 ∨
      ((1 : ℚ) / 2 ^ 1022 ≤ |toRat x| ∧ |toRat x| ≤ 2 ^ 1022 ∧
        (1 : ℚ) / 2 ^ 1022 ≤ |toRat t * toRat x| ∧ |toRat t * toRat x| < 2 ^ 1023)) :
    isFinite (t * x / t) = true ∧
      |toRat (t * x / t) - toRat x| ≤ 3 / 2 ^ 53 * |toRat x| := by
  rcases h with h | ⟨h1, h2, h3, h4⟩
  · obtain ⟨hf, h0⟩ := mul_div_cancel_zero x t hx ht h ht0
    refine ⟨hf, ?_⟩
    rw [h0, h]
    simp
  · have c1 : (((1 : ℚ) / 2 ^ 1022 : ℚ) : ℝ) ≤ ((|toRat x| : ℚ) : ℝ) := Rat.cast_le.mpr h1
    have c2 : ((|toRat x| : ℚ) : ℝ) ≤ (((2 : ℚ) ^ 1022 : ℚ) : ℝ) := Rat.cast_le.mpr h2
    have c3 : (((1 : ℚ) / 2 ^ 1022 : ℚ) : ℝ) ≤ ((|toRat t * toRat x| : ℚ) : ℝ) :=
      Rat.cast_le.mpr h3
    have c4 : ((|toRat t * toRat x| : ℚ) : ℝ) < (((2 : ℚ) ^ 1023 : ℚ) : ℝ) := Rat.cast_lt.mpr h4
    push_cast at c1 c2 c3 c4
    have h1' : (2 : ℝ) ^ (-1022 : Int) ≤ |toReal x| := by
      rw [zpow_m1022_eq]; exact c1
    have h2' : |toReal x| ≤ (2 : ℝ) ^ (1022 : Int) := by
      rw [zpow_1022_eq]; exact c2
    have h3' : (2 : ℝ) ^ (-1022 : Int) ≤ |toReal t * toReal x| := by
      rw [zpow_m1022_eq]; exact c3
    have h4' : |toReal t * toReal x| < (2 : ℝ) ^ (1023 : Int) := by
      rw [zpow_1023_eq]; exact c4
    obtain ⟨hf, he⟩ := mul_div_cancel_approx x t hx ht h1' h2' h3' h4'
    refine ⟨hf, ?_⟩
    rw [zpow_m53_eq] at he
    have he' : ((|toRat (t * x / t) - toRat x| : ℚ) : ℝ) ≤
        (((3 : ℚ) / 2 ^ 53 * |toRat x| : ℚ) : ℝ) := by
      push_cast
      calc |((toRat (t * x / t) : ℚ) : ℝ) - ((toRat x : ℚ) : ℝ)|
          ≤ 3 * (1 / 2 ^ 53) * |((toRat x : ℚ) : ℝ)| := he
        _ = 3 / 2 ^ 53 * |((toRat x : ℚ) : ℝ)| := by ring
    exact Rat.cast_le.mp he'

/-- The small integers are `double`s that denote themselves. -/
theorem toRat_small :
    toRat 0 = 0 ∧ toRat 1 = 1 ∧ toRat 2 = 2 ∧ toRat 3 = 3 ∧ toRat 4 = 4 ∧
      toRat 5 = 5 := by
  rw [show (0 : Dbl) = fin false 0 (-1074) by decide,
    show (1 : Dbl) = fin false 4503599627370496 (-52) by decide,
    show (2 : Dbl) = fin false 4503599627370496 (-51) by decide,
    show (3 : Dbl) = fin false 6755399441055744 (-51) by decide,
    show (4 : Dbl) = fin false 4503599627370496 (-50) by decide,
    show (5 : Dbl) = fin false 5629499534213120 (-50) by decide]
  norm_num [toRat]

end Dbl

/-! ## Facts about real vectors -/

namespace vec3

/-- The sum of the squared components of a real vector is not negative. -/
theorem sum_sq_nonneg (v : vec3 ℝ) : 0 ≤ v.e0 * v.e0 + v.e1 * v.e1 + v.e2 * v.e2 := by
  nlinarith [mul_self_nonneg v.e0, mul_self_nonneg v.e1, mul_self_nonneg v.e2]

/-- A real vector other than the zero vector has a positive sum of squared components. -/
theorem sum_sq_pos (v : vec3 ℝ) (h : v ≠ Construct 0 0 0) :
    0 < v.e0 * v.e0 + v.e1 * v.e1 + v.e2 * v.e2 := by
  rcases v with ⟨a, b, c⟩
  by_contra hn
  have ha := mul_self_nonneg a
  have hb := mul_self_nonneg b
  have hc := mul_self_nonneg c
  simp only [] at hn
  have ha0 : a * a = 0 := by linarith
  have hb0 : b * b = 0 := by linarith
  have hc0 : c * c = 0 := by linarith
  apply h
  rw [mul_self_eq_zero] at ha0 hb0 hc0
  subst ha0 hb0 hc0
  rfl

/-- A non-zero real vector divided by its length has length `1`. -/
theorem length_unit_vector_real (v : vec3 ℝ) (h : v ≠ Construct 0 0 0) :
    length (unit_vector v) = 1 := by
  have hS := sum_sq_pos v h
  have hL : 0 < Real.sqrt (v.e0 * v.e0 + v.e1 * v.e1 + v.e2 * v.e2) := Real.sqrt_pos.mpr hS
  show Real.sqrt _ = 1
  simp only [unit_vector, divide, Construct, length, HasSqrt.sqrt]
  have key : v.e0 / Real.sqrt (v.e0 * v.e0 + v.e1 * v.e1 + v.e2 * v.e2) *
        (v.e0 / Real.sqrt (v.e0 * v.e0 + v.e1 * v.e1 + v.e2 * v.e2)) +
      v.e1 / Real.sqrt (v.e0 * v.e0 + v.e1 * v.e1 + v.e2 * v.e2) *
        (v.e1 / Real.sqrt (v.e0 * v.e0 + v.e1 * v.e1 + v.e2 * v.e2)) +
      v.e2 / Real.sqrt (v.e0 * v.e0 + v.e1 * v.e1 + v.e2 * v.e2) *
        (v.e2 / Real.sqrt (v.e0 * v.e0 + v.e1 * v.e1 + v.e2 * v.e2)) = 1 := by
    have hne := ne_of_gt hL
    field_simp
  rw [key, Real.sqrt_one]

/-- Cauchy–Schwarz for real vectors: `|dot(v1, v2)| ≤ length(v1) * length(v2)`. -/
theorem abs_dot_le_real (v1 v2 : vec3 ℝ) : |dot v1 v2| ≤ length v1 * length v2 := by
  show |dot v1 v2| ≤ Real.sqrt _ * Real.sqrt _
  rw [← Real.sqrt_mul (sum_sq_nonneg v1)]
  apply Real.abs_le_sqrt
  simp only [dot]
  nlinarith [sq_nonneg (v1.e0 * v2.e1 - v1.e1 * v2.e0), sq_nonneg (v1.e0 * v2.e2 - v1.e2 * v2.e0),
    sq_nonneg (v1.e1 * v2.e2 - v1.e2 * v2.e1)]

/-- The squared length of a real vector is `0` exactly for the zero vector. -/
theorem squared_length_eq_zero_iff_real (v : vec3 ℝ) :
    squared_length v = 0 ↔ v = Construct 0 0 0 := by
  constructor
  · intro h
    by_contra hne
    have := sum_sq_pos v hne
    simp only [squared_length] at h
    linarith
  · intro h
    subst h
    simp [squared_length, Construct]

/-- The length of a real vector is `0` exactly when its squared length is. -/
theorem length_eq_zero_iff_real (v : vec3 ℝ) : length v = 0 ↔ squared_length v = 0 := by
  show Real.sqrt _ = 0 ↔ _
  rw [Real.sqrt_eq_zero (sum_sq_nonneg v)]
  rfl

/-- Scaling a real vector by `t` scales its length by `|t|`. -/
theorem length_scale_real (t : ℝ) (v : vec3 ℝ) : length (scale t v) = |t| * length v := by
  show Real.sqrt _ = |t| * Real.sqrt _
  simp only [scale, Construct]
  have h : t * v.e0 * (t * v.e0) + t * v.e1 * (t * v.e1) + t * v.e2 * (t * v.e2)
      = t ^ 2 * (v.e0 * v.e0 + v.e1 * v.e1 + v.e2 * v.e2) := by ring
  rw [h, Real.sqrt_mul (sq_nonneg t), Real.sqrt_sq_eq_abs]

end vec3

/-! ## Facts about vectors of `double`s and of field elements -/

namespace vec3

/-- In an exact field, dividing by `t ≠ 0` undoes scaling by `t`, for both overloads. -/
theorem divide_scale_field {α : Type} [Field α] (v : vec3 α) (t : α) (ht : t ≠ 0) :
    divide (scale_right v t) t = v ∧ divide (scale t v) t = v := by
  rcases v with ⟨a, b, c⟩
  simp only [divide, scale, scale_right, Construct, mul_div_cancel_left₀ _ ht, and_self]

/-- On `double`, the unit vector of a finite vector whose exact squared length is in
`[2^-1020, 2^1020]` has a computed length that is finite and within `2^-48` of `1`. -/
theorem length_unit_vector_double (v : vec3 Dbl)
    (hfin : ∀ i : Fin 3, Dbl.isFinite (component v i) = true)
    (hlo : (1 : ℚ) / 2 ^ 1020 ≤ squared_length (toRatVec v))
    (hhi : squared_length (toRatVec v) ≤ 2 ^ 1020) :
    Dbl.isFinite (length (unit_vector v)) = true ∧
      |Dbl.toRat (length (unit_vector v)) - 1| ≤ 1 / 2 ^ 48 := by
  have h0 := hfin 0
  have h1 := hfin 1
  have h2 := hfin 2
  simp only [component] at h0 h1 h2
  have c1 : (((1 : ℚ) / 2 ^ 1020 : ℚ) : ℝ) ≤ ((squared_length (toRatVec v) : ℚ) : ℝ) :=
    Rat.cast_le.mpr hlo
  have c2 : ((squared_length (toRatVec v) : ℚ) : ℝ) ≤ (((2 : ℚ) ^ 1020 : ℚ) : ℝ) :=
    Rat.cast_le.mpr hhi
  simp only [squared_length, toRatVec, Construct] at c1 c2
  push_cast at c1 c2
  have e1 : (2 : ℝ) ^ (-1020 : Int) = 1 / 2 ^ 1020 := by
    rw [zpow_neg, one_div]; rfl
  have e2 : (2 : ℝ) ^ (1020 : Int) = 2 ^ 1020 := rfl
  have e3 : (2 : ℝ) ^ (-48 : Int) = 1 / 2 ^ 48 := by
    rw [zpow_neg, one_div]; rfl
  obtain ⟨hf, he⟩ := Dbl.normalize_spec v.e0 v.e1 v.e2 h0 h1 h2
    (by rw [e1]; exact c1) (by rw [e2]; exact c2)
  refine ⟨hf, ?_⟩
  rw [e3] at he
  have he' : ((|Dbl.toRat (length (unit_vector v)) - 1| : ℚ) : ℝ) ≤
      (((1 : ℚ) / 2 ^ 48 : ℚ) : ℝ) := by
    push_cast
    exact he
  exact Rat.cast_le.mp he'

end vec3

/-! ## Facts about the in-place methods -/

namespace vec3

variable {α : Type}

/-- After `operator+=` the receiver holds the component-wise sum of the receiver and the
argument as they were before the call, also when the argument is the receiver itself. -/
theorem add_in_place_at_self [Add α] (σ : Store α) (a b : Nat) :
    (add_in_place_at σ a b).1 a = add (σ a) (σ b) := by
  by_cases h : b = a
  · subst h
    simp [add_in_place_at, Store.write, add, Construct]
  · simp [add_in_place_at, Store.write, add, Construct, h]

/-- The method `operator+=` writes to no object other than the receiver. -/
theorem add_in_place_at_other [Add α] (σ : Store α) (a b r : Nat) (h : r ≠ a) :
    (add_in_place_at σ a b).1 r = σ r := by
  simp [add_in_place_at, Store.write, h]

/-- After `operator/=` the receiver holds the quotient of each former component by `t`. -/
theorem divide_in_place_at_self [Div α] (σ : Store α) (a : Nat) (t : α) :
    (divide_in_place_at σ a t).1 a = divide (σ a) t := by
  simp [divide_in_place_at, Store.write, divide, Construct]

/-- The method `operator/=` writes to no object other than the receiver. -/
theorem divide_in_place_at_other [Div α] (σ : Store α) (a r : Nat) (t : α) (h : r ≠ a) :
    (divide_in_place_at σ a t).1 r = σ r := by
  simp [divide_in_place_at, Store.write, h]

end vec3

/-! ## The claims -/

namespace vec3

/-- C1 (as stated) fails on `double`: for `v = (+∞, 1, 0)` the component 0 of
`add(v, negate(v))` is `∞ + (-∞)`, which is NaN and not 0. -/
theorem C1_add_negate_inf_not_zero :
    ¬ (∀ i : Fin 3, Dbl.isZero (component
        (add (Construct (Dbl.inf false) 1 0) (negate (Construct (Dbl.inf false) 1 0))) i) = true) ∧
      component (add (Construct (Dbl.inf false) 1 0) (negate (Construct (Dbl.inf false) 1 0))) 0
        = Dbl.nan := by
  decide

/-- C1 (amended): for every `double` vector `v` whose three components are finite (neither an
infinity nor NaN), `add(v, negate(v))` is the zero vector: each component is `+0`. -/
theorem C1_add_negate_finite (v : vec3 Dbl)
    (h : ∀ i : Fin 3, Dbl.isFinite (component v i) = true) :
    add v (negate v) = Construct 0 0 0 := by
  have h0 := h 0
  have h1 := h 1
  have h2 := h 2
  simp only [component] at h0 h1 h2
  simp only [add, negate, Construct, Dbl.add_neg_self, h0, h1, h2, if_true]

/-- C1 (amended), at `v = (1, 2, 3)`. -/
theorem C1_add_negate_finite_witness :
    (∀ i : Fin 3, Dbl.isFinite (component (Construct (1 : Dbl) 2 3) i) = true) ∧
      add (Construct (1 : Dbl) 2 3) (negate (Construct 1 2 3)) = Construct 0 0 0 :=
  ⟨by decide, C1_add_negate_finite (Construct 1 2 3) (by decide)⟩

/-- C2 (as stated) fails on `double`: for the non-zero `v = (2^600, 0, 0)` the squared length
overflows to `+∞`, so `unit_vector(v)` is `(0, 0, 0)` and its length is `0`, not `1`; and for
the non-zero `v = (2^-600, 0, 0)` the squared length underflows to `0`, so `unit_vector(v)` is
`(+∞, NaN, NaN)` and its length is NaN. -/
theorem C2_length_unit_vector_not_one :
    (Construct (Dbl.fin false (2 ^ 52) 548) 0 0 ≠ Construct 0 0 0 ∧
      Dbl.valid (Dbl.fin false (2 ^ 52) 548) = true ∧
      unit_vector (Construct (Dbl.fin false (2 ^ 52) 548) 0 0) = Construct 0 0 0 ∧
      length (unit_vector (Construct (Dbl.fin false (2 ^ 52) 548) 0 0)) = 0 ∧
      length (unit_vector (Construct (Dbl.fin false (2 ^ 52) 548) 0 0)) ≠ 1) ∧
    (Construct (Dbl.fin false (2 ^ 52) (-652)) 0 0 ≠ Construct 0 0 0 ∧
      Dbl.valid (Dbl.fin false (2 ^ 52) (-652)) = true ∧
      unit_vector (Construct (Dbl.fin false (2 ^ 52) (-652)) 0 0)
        = Construct (Dbl.inf false) Dbl.nan Dbl.nan ∧
      length (unit_vector (Construct (Dbl.fin false (2 ^ 52) (-652)) 0 0)) = Dbl.nan) := by
  decide

/-- C2 (amended): with the components modelled as reals, for every non-zero vector `v`,
`length(unit_vector(v))` is exactly `1`; and on `double`, for every vector `v` with finite
components whose exact squared length `x² + y² + z²` lies in `[2^-1020, 2^1020]` (so that
neither overflow nor underflow occurs), the computed `length(unit_vector(v))` is finite and
differs from `1` by at most `2^-48`. -/
theorem C2_length_unit_vector :
    (∀ v : vec3 ℝ, v ≠ Construct 0 0 0 → length (unit_vector v) = 1) ∧
      (∀ v : vec3 Dbl, (∀ i : Fin 3, Dbl.isFinite (component v i) = true) →
        (1 : ℚ) / 2 ^ 1020 ≤ squared_length (toRatVec v) →
        squared_length (toRatVec v) ≤ 2 ^ 1020 →
        Dbl.isFinite (length (unit_vector v)) = true ∧
          |Dbl.toRat (length (unit_vector v)) - 1| ≤ 1 / 2 ^ 48) :=
  ⟨length_unit_vector_real, length_unit_vector_double⟩

/-- C2 (amended), at `v = (3, 4, 0)` over the reals and on `double`. -/
theorem C2_length_unit_vector_witness :
    (Construct (3 : ℝ) 4 0 ≠ Construct 0 0 0 ∧
        length (unit_vector (Construct (3 : ℝ) 4 0)) = 1) ∧
      ((∀ i : Fin 3, Dbl.isFinite (component (Construct (3 : Dbl) 4 0) i) = true) ∧
        (1 : ℚ) / 2 ^ 1020 ≤ squared_length (toRatVec (Construct (3 : Dbl) 4 0)) ∧
        squared_length (toRatVec (Construct (3 : Dbl) 4 0)) ≤ 2 ^ 1020 ∧
        Dbl.isFinite (length (unit_vector (Construct (3 : Dbl) 4 0))) = true ∧
        |Dbl.toRat (length (unit_vector (Construct (3 : Dbl) 4 0))) - 1| ≤ 1 / 2 ^ 48) :=
  have hlo : (1 : ℚ) / 2 ^ 1020 ≤ squared_length (toRatVec (Construct (3 : Dbl) 4 0)) := by
    simp only [squared_length, toRatVec, Construct, Dbl.toRat_small]
    norm_num
  have hhi : squared_length (toRatVec (Construct (3 : Dbl) 4 0)) ≤ 2 ^ 1020 := by
    simp only [squared_length, toRatVec, Construct, Dbl.toRat_small]
    norm_num
  ⟨⟨by simp [Construct], C2_length_unit_vector.1 _ (by simp [Construct])⟩,
    by decide, hlo, hhi, C2_length_unit_vector.2 _ (by decide) hlo hhi⟩

/-- C3 (as stated) fails on `double`: for `v = (2^600, 0, 0)` and `t = 2^600 ≠ 0` the product
`t * v[0]` overflows to `+∞`, and `divide(scale(v, t), t)` has component 0 equal to `+∞`,
not `2^600`. -/
theorem C3_divide_scale_overflow :
    Dbl.isZero (Dbl.fin false (2 ^ 52) 548) = false ∧
      Dbl.valid (Dbl.fin false (2 ^ 52) 548) = true ∧
      divide (scale_right (Construct (Dbl.fin false (2 ^ 52) 548) 0 0) (Dbl.fin false (2 ^ 52) 548))
          (Dbl.fin false (2 ^ 52) 548) = Construct (Dbl.inf false) 0 0 ∧
      divide (scale_right (Construct (Dbl.fin false (2 ^ 52) 548) 0 0) (Dbl.fin false (2 ^ 52) 548))
          (Dbl.fin false (2 ^ 52) 548) ≠ Construct (Dbl.fin false (2 ^ 52) 548) 0 0 := by
  decide

/-- C3 (amended): with the components modelled in an exact field, for every vector `v` and
every scalar `t ≠ 0`, `divide(scale(v, t), t)` equals `v`, for both argument orders of
`scale`; and on `double`, for every finite non-zero `t` and every finite component `v[i]`
that is zero or for which neither `v[i]` nor the product `t * v[i]` overflows or underflows
(`2^-1022 ≤ |v[i]| ≤ 2^1022` and `2^-1022 ≤ |t * v[i]| < 2^1023`), both argument orders of
`scale` give the same vector, and component `i` of `divide(scale(v, t), t)` is finite and
differs from `v[i]` by at most `3 * 2^-53 * |v[i]|`. -/
theorem C3_divide_scale :
    (∀ (α : Type) [Field α] (v : vec3 α) (t : α), t ≠ 0 →
        divide (scale_right v t) t = v ∧ divide (scale t v) t = v) ∧
      (∀ (v : vec3 Dbl) (t : Dbl) (i : Fin 3), Dbl.isFinite t = true → Dbl.toRat t ≠ 0 →
        Dbl.isFinite (component v i) = true →
        (Dbl.toRat (component v i) = 0 ∨
          ((1 : ℚ) / 2 ^ 1022 ≤ |Dbl.toRat (component v i)| ∧
            |Dbl.toRat (component v i)| ≤ 2 ^ 1022 ∧
            (1 : ℚ) / 2 ^ 1022 ≤ |Dbl.toRat t * Dbl.toRat (component v i)| ∧
            |Dbl.toRat t * Dbl.toRat (component v i)| < 2 ^ 1023)) →
        divide (scale t v) t = divide (scale_right v t) t ∧
          Dbl.isFinite (component (divide (scale_right v t) t) i) = true ∧
          |Dbl.toRat (component (divide (scale_right v t) t) i) - Dbl.toRat (component v i)|
            ≤ 3 / 2 ^ 53 * |Dbl.toRat (component v i)|) := by
  refine ⟨fun α _ v t ht => divide_scale_field v t ht, fun v t i ht ht0 hx h => ⟨rfl, ?_⟩⟩
  fin_cases i
  · exact Dbl.mul_div_cancel_rat v.e0 t hx ht ht0 h
  · exact Dbl.mul_div_cancel_rat v.e1 t hx ht ht0 h
  · exact Dbl.mul_div_cancel_rat v.e2 t hx ht ht0 h

/-- C3 (amended), at `v = (1, 2, 3)` and `t = 5`: over the rationals, and on `double` at
component `0`, where the result is moreover exactly `v`. -/
theorem C3_divide_scale_witness :
    ((5 : ℚ) ≠ 0 ∧ divide (scale_right (Construct (1 : ℚ) 2 3) 5) 5 = Construct 1 2 3 ∧
        divide (scale 5 (Construct (1 : ℚ) 2 3)) 5 = Construct 1 2 3) ∧
      (Dbl.isFinite (5 : Dbl) = true ∧ Dbl.toRat (5 : Dbl) ≠ 0 ∧
        Dbl.isFinite (component (Construct (1 : Dbl) 2 3) 0) = true ∧
        divide (scale 5 (Construct (1 : Dbl) 2 3)) 5
          = divide (scale_right (Construct (1 : Dbl) 2 3) 5) 5 ∧
        Dbl.isFinite (component (divide (scale_right (Construct (1 : Dbl) 2 3) 5) 5) 0) = true ∧
        |Dbl.toRat (component (divide (scale_right (Construct (1 : Dbl) 2 3) 5) 5) 0)
            - Dbl.toRat (component (Construct (1 : Dbl) 2 3) 0)|
          ≤ 3 / 2 ^ 53 * |Dbl.toRat (component (Construct (1 : Dbl) 2 3) 0)| ∧
        divide (scale_right (Construct (1 : Dbl) 2 3) 5) 5 = Construct 1 2 3) :=
  have h5 : Dbl.toRat (5 : Dbl) ≠ 0 := by
    simp only [Dbl.toRat_small]
    norm_num
  have hr : Dbl.toRat (component (Construct (1 : Dbl) 2 3) 0) = 0 ∨
      ((1 : ℚ) / 2 ^ 1022 ≤ |Dbl.toRat (component (Construct (1 : Dbl) 2 3) 0)| ∧
        |Dbl.toRat (component (Construct (1 : Dbl) 2 3) 0)| ≤ 2 ^ 1022 ∧
        (1 : ℚ) / 2 ^ 1022
          ≤ |Dbl.toRat (5 : Dbl) * Dbl.toRat (component (Construct (1 : Dbl) 2 3) 0)| ∧
        |Dbl.toRat (5 : Dbl) * Dbl.toRat (component (Construct (1 : Dbl) 2 3) 0)|
          < 2 ^ 1023) := by
    right
    simp only [component, Construct, Dbl.toRat_small]
    norm_num
  ⟨⟨by norm_num, C3_divide_scale.1 ℚ (Construct 1 2 3) 5 (by norm_num)⟩,
    by decide, h5, by decide,
    (C3_divide_scale.2 (Construct 1 2 3) 5 0 (by decide) h5 (by decide) hr).1,
    (C3_divide_scale.2 (Construct 1 2 3) 5 0 (by decide) h5 (by decide) hr).2.1,
    (C3_divide_scale.2 (Construct 1 2 3) 5 0 (by decide) h5 (by decide) hr).2.2,
    by decide⟩

/-- C4: for all vectors `v1`, `v2`, `dot(v1, v2)` and `dot(v2, v1)` are the same value, on
`double` components and on the components of any commutative (semi)ring such as the reals. -/
theorem C4_dot_comm :
    (∀ v1 v2 : vec3 Dbl, dot v1 v2 = dot v2 v1) ∧
      (∀ (α : Type) [CommSemiring α] (v1 v2 : vec3 α), dot v1 v2 = dot v2 v1) := by
  refine ⟨fun v1 v2 => ?_, fun α _ v1 v2 => ?_⟩
  · simp only [dot]
    rw [Dbl.mul_comm v1.e0, Dbl.mul_comm v1.e1, Dbl.mul_comm v1.e2]
  · simp only [dot]
    rw [mul_comm v1.e0, mul_comm v1.e1, mul_comm v1.e2]

/-- C5: for every vector `v`, over any scalar type, `squared_length(v)` is `dot(v, v)`. -/
theorem C5_squared_length_eq_dot {α : Type} [Add α] [Mul α] (v : vec3 α) :
    squared_length v = dot v v := rfl

/-- C6 (as stated) fails on `double`: for `v = (1, 1, 0)`, `squared_length(v)` is `2` and
`length(v)` is the rounded `sqrt(2)` (`6369051672525773 * 2^-52`), whose square rounds to
`4503599627370497 * 2^-51`, the `double` next above `2`. -/
theorem C6_length_sq_ne_squared_length :
    squared_length (Construct (1 : Dbl) 1 0) = 2 ∧
      length (Construct (1 : Dbl) 1 0) = Dbl.fin false 6369051672525773 (-52) ∧
      length (Construct (1 : Dbl) 1 0) * length (Construct (1 : Dbl) 1 0)
        = Dbl.fin false 4503599627370497 (-51) ∧
      length (Construct (1 : Dbl) 1 0) * length (Construct (1 : Dbl) 1 0)
        ≠ squared_length (Construct (1 : Dbl) 1 0) := by
  decide

/-- C6 (amended): for every vector `v`, over any scalar type, `length(v)` is the square root of
`squared_length(v)`, the sum of the squared components; on `double` it is NaN or not negative;
with the components modelled as reals it is the Euclidean norm, `length(v) ≥ 0` and
`length(v) * length(v) = squared_length(v)`; and `Construct(1,2,3).length()` is `sqrt(14)`,
on `double` and on the reals. -/
theorem C6_length_euclidean :
    (∀ (α : Type) [Add α] [Mul α] [HasSqrt α] (v : vec3 α),
        length v = HasSqrt.sqrt (squared_length v)) ∧
      (∀ v : vec3 Dbl, length v = Dbl.nan ∨ Dbl.nonneg (length v) = true) ∧
      (∀ v : vec3 ℝ, length v = Real.sqrt (v.e0 ^ 2 + v.e1 ^ 2 + v.e2 ^ 2) ∧ 0 ≤ length v ∧
        length v * length v = squared_length v) ∧
      length (Construct (1 : Dbl) 2 3) = Dbl.sqrt 14 ∧
      length (Construct (1 : ℝ) 2 3) = Real.sqrt 14 := by
  refine ⟨fun α _ _ _ v => rfl, fun v => ?_, fun v => ⟨?_, Real.sqrt_nonneg _, ?_⟩,
    by decide, ?_⟩
  · exact Dbl.sqrt_nonneg_or_nan _ (Dbl.add_nonneg_or_nan _ _
      (Dbl.add_nonneg_or_nan _ _ (Dbl.mul_self_nonneg_or_nan _) (Dbl.mul_self_nonneg_or_nan _))
      (Dbl.mul_self_nonneg_or_nan _))
  · show Real.sqrt _ = _
    congr 1
    ring
  · exact Real.mul_self_sqrt (sum_sq_nonneg v)
  · show Real.sqrt _ = _
    congr 1
    simp only [Construct]
    norm_num

/-- C7: for all vectors `v1`, `v2` over any scalar type and every index `i` in `{0,1,2}`,
component `i` of `add(v1, v2)`, `subtract(v1, v2)` and `multiply_elementwise(v1, v2)` is
`v1[i] + v2[i]`, `v1[i] - v2[i]` and `v1[i] * v2[i]`; and `add(Construct(1,0,0),
Construct(0,1,0))` is `Construct(1,1,0)`, on `double` and on the reals. -/
theorem C7_componentwise :
    (∀ (α : Type) [Add α] [Sub α] [Mul α] (v1 v2 : vec3 α) (i : Fin 3),
        component (add v1 v2) i = component v1 i + component v2 i ∧
        component (subtract v1 v2) i = component v1 i - component v2 i ∧
        component (multiply_elementwise v1 v2) i = component v1 i * component v2 i) ∧
      add (Construct (1 : Dbl) 0 0) (Construct 0 1 0) = Construct 1 1 0 ∧
      add (Construct (1 : ℝ) 0 0) (Construct 0 1 0) = Construct 1 1 0 := by
  refine ⟨fun α _ _ _ v1 v2 i => ?_, by decide, ?_⟩
  · fin_cases i <;> exact ⟨rfl, rfl, rfl⟩
  · simp [add, Construct]

/-- C8: for all vectors `v1`, `v2` over any scalar type, `dot(v1, v2)` is
`v1[0]*v2[0] + v1[1]*v2[1] + v1[2]*v2[2]`; and `dot(Construct(1,0,0), Construct(0,1,0))`
is `0`, on `double` and on the reals. -/
theorem C8_dot_sum_of_products :
    (∀ (α : Type) [Add α] [Mul α] (v1 v2 : vec3 α),
        dot v1 v2 = component v1 0 * component v2 0 + component v1 1 * component v2 1 +
          component v1 2 * component v2 2) ∧
      dot (Construct (1 : Dbl) 0 0) (Construct 0 1 0) = 0 ∧
      dot (Construct (1 : ℝ) 0 0) (Construct 0 1 0) = 0 := by
  refine ⟨fun α _ _ v1 v2 => rfl, by decide, ?_⟩
  simp [dot, Construct]

/-- C9: for every vector `v` and scalar `t` over any scalar type, `scale(t, v)` and
`scale(v, t)` are the same vector, and each component `i` of it is `t * v[i]`. -/
theorem C9_scale_orders_agree {α : Type} [Mul α] (t : α) (v : vec3 α) :
    scale t v = scale_right v t ∧
      ∀ i : Fin 3, component (scale t v) i = t * component v i ∧
        component (scale_right v t) i = t * component v i := by
  refine ⟨rfl, fun i => ?_⟩
  fin_cases i <;> exact ⟨rfl, rfl⟩

/-- C10: for every vector `v` and every rendering `render` of one component as text,
`to_text(v)` is `"("`, the rendering of component 0, `","`, that of component 1, `","`, that of
component 2 and `")"`, in this order with nothing in between; so when `1`, `2`, `3` are
rendered as `"1"`, `"2"`, `"3"`, `to_text(Construct(1,2,3))` is `"(1,2,3)"`. -/
theorem C10_to_text_format {α : Type} [OfNat α 1] [OfNat α 2] [OfNat α 3]
    (render : α → String) :
    (∀ v : vec3 α, (to_text render v).data =
        [ '(' ] ++ (render (component v 0)).data ++ [ ',' ] ++ (render (component v 1)).data ++
          [ ',' ] ++ (render (component v 2)).data ++ [ ')' ]) ∧
      (render 1 = "1" → render 2 = "2" → render 3 = "3" →
        to_text render (Construct 1 2 3) = "(1,2,3)") := by
  refine ⟨fun v => ?_, fun h1 h2 h3 => ?_⟩
  · simp [to_text, component, String.data_append]
  · simp only [to_text, Construct, h1, h2, h3]
    decide

/-- C10, with natural-number components rendered in decimal by `Nat.repr`. -/
theorem C10_to_text_format_witness :
    (Nat.repr 1 = "1" ∧ Nat.repr 2 = "2" ∧ Nat.repr 3 = "3") ∧
      to_text Nat.repr (Construct 1 2 3) = "(1,2,3)" :=
  ⟨by decide, (C10_to_text_format Nat.repr).2 (by decide) (by decide) (by decide)⟩

/-- C11 (as stated) fails when `b` is the receiver itself: after `a += a` with
`a = (1, 2, 3)` the one object holds `(2, 4, 6)`, so `b` is not left unchanged. -/
theorem C11_add_in_place_aliased :
    (add_in_place_at (fun _ => Construct (1 : Dbl) 2 3) 0 0).1 0 = Construct 2 4 6 ∧
      (add_in_place_at (fun _ => Construct (1 : Dbl) 2 3) 0 0).1 0 ≠
        (fun _ => Construct (1 : Dbl) 2 3) 0 := by
  decide

/-- C11 (amended): for all objects `a`, `b`, `c` over any scalar type, `a += b` leaves the
receiver `a` equal to `add(a_old, b_old)` (also when `b` is `a`; so does the method read on
values), leaves every object other than the receiver unchanged (so `b` is unchanged unless `b`
is the receiver), and returns the receiver itself, so that `(a += b) += c`, for `c` other than
`a`, leaves `a` equal to `add(add(a_old, b_old), c)`. -/
theorem C11_add_in_place {α : Type} [Add α] (σ : Store α) (a b c : Nat) :
    (add_in_place_at σ a b).1 a = add (σ a) (σ b) ∧
      add_in_place (σ a) (σ b) = add (σ a) (σ b) ∧
      (∀ r : Nat, r ≠ a → (add_in_place_at σ a b).1 r = σ r) ∧
      (add_in_place_at σ a b).2 = a ∧
      (c ≠ a →
        (add_in_place_at (add_in_place_at σ a b).1 (add_in_place_at σ a b).2 c).1 a
          = add (add (σ a) (σ b)) (σ c)) := by
  refine ⟨add_in_place_at_self σ a b, rfl, fun r h => add_in_place_at_other σ a b r h, rfl,
    fun hc => ?_⟩
  show (add_in_place_at (add_in_place_at σ a b).1 a c).1 a = _
  rw [add_in_place_at_self, add_in_place_at_self, add_in_place_at_other σ a b c hc]

/-- C11 (amended), on the store holding `(n, 1, 0)` at each address `n`, with `a`, `b`, `c`
the addresses `0`, `1`, `2`. -/
theorem C11_add_in_place_witness :
    ((1 : Nat) ≠ 0 ∧
      (add_in_place_at (fun n => Construct (n : Int) 1 0) 0 1).1 1 = Construct 1 1 0) ∧
    ((2 : Nat) ≠ 0 ∧
      (add_in_place_at (add_in_place_at (fun n => Construct (n : Int) 1 0) 0 1).1
          (add_in_place_at (fun n => Construct (n : Int) 1 0) 0 1).2 2).1 0
        = add (add (Construct 0 1 0) (Construct 1 1 0)) (Construct 2 1 0)) :=
  ⟨⟨by decide, (C11_add_in_place (fun n => Construct (n : Int) 1 0) 0 1 2).2.2.1 1 (by decide)⟩,
    ⟨by decide, (C11_add_in_place (fun n => Construct (n : Int) 1 0) 0 1 2).2.2.2.2 (by decide)⟩⟩

/-- C12: for every object `v` and scalar `t` over any scalar type, `v /= t` leaves the receiver
equal to `divide(v_old, t)`, every component `i` being `v_old[i] / t`, returns the receiver
itself, and leaves every other object unchanged. -/
theorem C12_divide_in_place {α : Type} [Div α] (σ : Store α) (a : Nat) (t : α) :
    (divide_in_place_at σ a t).1 a = divide (σ a) t ∧
      (∀ i : Fin 3, component ((divide_in_place_at σ a t).1 a) i = component (σ a) i / t) ∧
      (divide_in_place_at σ a t).2 = a ∧
      (∀ r : Nat, r ≠ a → (divide_in_place_at σ a t).1 r = σ r) ∧
      divide_in_place (σ a) t = divide (σ a) t := by
  refine ⟨divide_in_place_at_self σ a t, fun i => ?_, rfl,
    fun r h => divide_in_place_at_other σ a r t h, rfl⟩
  rw [divide_in_place_at_self]
  fin_cases i <;> rfl

/-- C12, on the store holding `(n, 4, 6)` at each address `n`, with the receiver at address `2`
divided by `2` over the rationals. -/
theorem C12_divide_in_place_witness :
    (divide_in_place_at (fun n => Construct (n : ℚ) 4 6) 2 2).1 2 = Construct 1 2 3 ∧
      ((1 : Nat) ≠ 2 ∧
        (divide_in_place_at (fun n => Construct (n : ℚ) 4 6) 2 2).1 1 = Construct 1 4 6) :=
  ⟨by
    rw [(C12_divide_in_place (fun n => Construct (n : ℚ) 4 6) 2 2).1]
    simp only [divide, Construct]
    norm_num,
   by decide,
   by
    rw [(C12_divide_in_place (fun n => Construct (n : ℚ) 4 6) 2 2).2.2.2.1 1 (by decide)]
    norm_num⟩

/-- C13: for every object `v` over any scalar type, `negate(v)` returns a new vector whose
component `i` is `-v[i]` for each `i` in `{0,1,2}`, and the store, the receiver included, is
unchanged by the call. -/
theorem C13_negate {α : Type} [Neg α] (σ : Store α) (a : Nat) :
    (negate_at σ a).2 = negate (σ a) ∧
      (∀ i : Fin 3, component (negate_at σ a).2 i = -component (σ a) i) ∧
      (negate_at σ a).1 = σ ∧
      (negate_at σ a).1 a = σ a := by
  refine ⟨rfl, fun i => ?_, rfl, rfl⟩
  fin_cases i <;> rfl

/-- C14: for all scalars `a`, `b`, `c` of any scalar type, `Construct(a, b, c)` has the
components `(a, b, c)`: `component(0) = x() = r() = a`, `component(1) = y() = g() = b`,
`component(2) = z() = b() = c`; and on every vector the accessors `x/y/z` and `r/g/b` return
the components `0/1/2`. -/
theorem C14_construct_accessors {α : Type} (a b c : α) :
    (component (Construct a b c) 0 = a ∧ x (Construct a b c) = a ∧ r (Construct a b c) = a) ∧
      (component (Construct a b c) 1 = b ∧ y (Construct a b c) = b ∧ g (Construct a b c) = b) ∧
      (component (Construct a b c) 2 = c ∧ z (Construct a b c) = c ∧
        vec3.b (Construct a b c) = c) ∧
      (∀ v : vec3 α, x v = component v 0 ∧ r v = component v 0 ∧ y v = component v 1 ∧
        g v = component v 1 ∧ z v = component v 2 ∧ vec3.b v = component v 2) :=
  ⟨⟨rfl, rfl, rfl⟩, ⟨rfl, rfl, rfl⟩, ⟨rfl, rfl, rfl⟩, fun _ => ⟨rfl, rfl, rfl, rfl, rfl, rfl⟩⟩

/-- C15: for every vector `v`, over any scalar type, `unit_vector(v)` is
`divide(v, length(v))`; on `double`, for every `v` of zero length every component of
`unit_vector(v)` is an infinity or NaN (a value is returned, nothing fails); the zero vector has
zero length and its `unit_vector` is `(NaN, NaN, NaN)`. -/
theorem C15_unit_vector_zero_length :
    (∀ (α : Type) [Add α] [Mul α] [Div α] [HasSqrt α] (v : vec3 α),
        unit_vector v = divide v (length v)) ∧
      (∀ v : vec3 Dbl, Dbl.isZero (length v) = true →
        ∀ i : Fin 3, Dbl.isFinite (component (unit_vector v) i) = false) ∧
      length (Construct (0 : Dbl) 0 0) = 0 ∧
      unit_vector (Construct (0 : Dbl) 0 0) = Construct Dbl.nan Dbl.nan Dbl.nan := by
  refine ⟨fun α _ _ _ _ v => rfl, fun v h i => ?_, by decide, by decide⟩
  fin_cases i <;> exact Dbl.div_zero_not_finite _ _ h

/-- C15, at `v = (2^-600, 0, 0)`, whose squared length underflows to `0`: the components of
`unit_vector(v)` are `+∞`, NaN, NaN. -/
theorem C15_unit_vector_zero_length_witness :
    Dbl.isZero (length (Construct (Dbl.fin false (2 ^ 52) (-652)) 0 0)) = true ∧
      (∀ i : Fin 3, Dbl.isFinite
        (component (unit_vector (Construct (Dbl.fin false (2 ^ 52) (-652)) 0 0)) i) = false) :=
  ⟨by decide, C15_unit_vector_zero_length.2.1 _ (by decide)⟩

/-- C16 (as stated) fails when the zero divisor is `-0`: the components of
`divide((1, 2, 3), -0)` are `-∞`, not the infinity of the sign of the (positive) components;
`divide_in_place` does the same. -/
theorem C16_divide_by_negative_zero :
    Dbl.isZero (Dbl.zero true) = true ∧
      divide (Construct (1 : Dbl) 2 3) (Dbl.zero true)
        = Construct (Dbl.inf true) (Dbl.inf true) (Dbl.inf true) ∧
      (divide_in_place_at (fun _ => Construct (1 : Dbl) 2 3) 0 (Dbl.zero true)).1 0
        = Construct (Dbl.inf true) (Dbl.inf true) (Dbl.inf true) := by
  decide

/-- C16 (amended): on `double`, for every vector `v` and every zero divisor `t` (`+0` or `-0`),
`divide(v, t)` and `divide_in_place(t)` return a value, the same one, and each resulting
component is an infinity or NaN: NaN for a zero or NaN component, and for every other component
(non-zero finite, or infinite) the infinity whose sign is the component's sign when `t` is
`+0` and the opposite sign when `t` is `-0`. -/
theorem C16_divide_by_zero (v : vec3 Dbl) (t : Dbl) (ht : Dbl.isZero t = true) :
    (∀ i : Fin 3, Dbl.isFinite (component (divide v t) i) = false) ∧
      (∀ i : Fin 3, component (divide v t) i =
        if Dbl.isNaN (component v i) || Dbl.isZero (component v i) then Dbl.nan
        else Dbl.inf (xor (Dbl.signBit (component v i)) (Dbl.signBit t))) ∧
      (Dbl.signBit t = false → ∀ i : Fin 3, component (divide v t) i =
        if Dbl.isNaN (component v i) || Dbl.isZero (component v i) then Dbl.nan
        else Dbl.inf (Dbl.signBit (component v i))) ∧
      (Dbl.signBit t = true → ∀ i : Fin 3, component (divide v t) i =
        if Dbl.isNaN (component v i) || Dbl.isZero (component v i) then Dbl.nan
        else Dbl.inf (!Dbl.signBit (component v i))) ∧
      (∀ (σ : Store Dbl) (a : Nat), (divide_in_place_at σ a t).1 a = divide (σ a) t) ∧
      divide_in_place v t = divide v t := by
  have key : ∀ i : Fin 3, component (divide v t) i =
      if Dbl.isNaN (component v i) || Dbl.isZero (component v i) then Dbl.nan
      else Dbl.inf (xor (Dbl.signBit (component v i)) (Dbl.signBit t)) := by
    intro i
    fin_cases i <;> exact Dbl.div_zero _ _ ht
  refine ⟨fun i => ?_, key, fun hs i => ?_, fun hs i => ?_,
    fun σ a => divide_in_place_at_self σ a t, rfl⟩
  · fin_cases i <;> exact Dbl.div_zero_not_finite _ _ ht
  · rw [key i, hs, Bool.xor_false]
  · rw [key i, hs, Bool.xor_true]

/-- C16 (amended), at `v = (1, -2, 0)` and `t = +0`: the result is `(+∞, -∞, NaN)`. -/
theorem C16_divide_by_zero_witness :
    (Dbl.isZero (0 : Dbl) = true ∧ Dbl.signBit (0 : Dbl) = false) ∧
      (∀ i : Fin 3, Dbl.isFinite (component (divide (Construct (1 : Dbl) (-2) 0) 0) i) = false) ∧
      (∀ i : Fin 3, component (divide (Construct (1 : Dbl) (-2) 0) 0) i =
        if Dbl.isNaN (component (Construct (1 : Dbl) (-2) 0) i) ||
            Dbl.isZero (component (Construct (1 : Dbl) (-2) 0) i) then Dbl.nan
        else Dbl.inf (Dbl.signBit (component (Construct (1 : Dbl) (-2) 0) i))) ∧
      divide (Construct (1 : Dbl) (-2) 0) 0 = Construct (Dbl.inf false) (Dbl.inf true) Dbl.nan :=
  ⟨⟨by decide, by decide⟩, (C16_divide_by_zero (Construct 1 (-2) 0) 0 (by decide)).1,
    (C16_divide_by_zero (Construct 1 (-2) 0) 0 (by decide)).2.2.1 (by decide), by decide⟩

/-- C17: with the components modelled as reals, for all vectors `v1`, `v2`,
`|dot(v1, v2)| ≤ length(v1) * length(v2)`, and for all non-zero `v1`, `v2` the value
`dot(unit_vector(v1), unit_vector(v2))` lies in `[-1, 1]`. -/
theorem C17_cauchy_schwarz (v1 v2 : vec3 ℝ) :
    |dot v1 v2| ≤ length v1 * length v2 ∧
      (v1 ≠ Construct 0 0 0 → v2 ≠ Construct 0 0 0 →
        -1 ≤ dot (unit_vector v1) (unit_vector v2) ∧
          dot (unit_vector v1) (unit_vector v2) ≤ 1) := by
  refine ⟨abs_dot_le_real v1 v2, fun h1 h2 => ?_⟩
  have h := abs_dot_le_real (unit_vector v1) (unit_vector v2)
  rw [length_unit_vector_real v1 h1, length_unit_vector_real v2 h2, mul_one] at h
  exact abs_le.mp h

/-- C17, at `v1 = (3, 4, 0)` and `v2 = (0, 0, 2)`. -/
theorem C17_cauchy_schwarz_witness :
    (Construct (3 : ℝ) 4 0 ≠ Construct 0 0 0 ∧ Construct (0 : ℝ) 0 2 ≠ Construct 0 0 0) ∧
      (-1 ≤ dot (unit_vector (Construct (3 : ℝ) 4 0)) (unit_vector (Construct (0 : ℝ) 0 2)) ∧
        dot (unit_vector (Construct (3 : ℝ) 4 0)) (unit_vector (Construct (0 : ℝ) 0 2)) ≤ 1) :=
  ⟨⟨by simp [Construct], by simp [Construct]⟩,
    (C17_cauchy_schwarz (Construct 3 4 0) (Construct 0 0 2)).2 (by simp [Construct])
      (by simp [Construct])⟩

/-- C18: with the components modelled as reals, for every vector `v` and scalar `t`,
`length(scale(t, v)) = |t| * length(v)` and
`squared_length(scale(t, v)) = t*t * squared_length(v)`; and for every `t > 0` and non-zero `v`,
`unit_vector(scale(t, v)) = unit_vector(v)`. -/
theorem C18_scale_length (v : vec3 ℝ) (t : ℝ) :
    length (scale t v) = |t| * length v ∧
      squared_length (scale t v) = t * t * squared_length v ∧
      (0 < t → v ≠ Construct 0 0 0 → unit_vector (scale t v) = unit_vector v) := by
  refine ⟨length_scale_real t v, ?_, fun ht hv => ?_⟩
  · simp only [squared_length, scale, Construct]
    ring
  · have hL : 0 < length v := by
      show 0 < Real.sqrt _
      exact Real.sqrt_pos.mpr (sum_sq_pos v hv)
    have hLne : length v ≠ 0 := ne_of_gt hL
    have htne : t ≠ 0 := ne_of_gt ht
    simp only [unit_vector, length_scale_real, abs_of_pos ht]
    simp only [divide, scale, Construct, mul_div_mul_left _ _ htne]

/-- C18, at `v = (3, 4, 0)` and `t = 2`. -/
theorem C18_scale_length_witness :
    ((0 : ℝ) < 2 ∧ Construct (3 : ℝ) 4 0 ≠ Construct 0 0 0) ∧
      unit_vector (scale 2 (Construct (3 : ℝ) 4 0)) = unit_vector (Construct (3 : ℝ) 4 0) :=
  ⟨⟨by norm_num, by simp [Construct]⟩,
    (C18_scale_length (Construct 3 4 0) 2).2.2 (by norm_num) (by simp [Construct])⟩

/-- C19: with the components modelled as reals, for every vector `v`, `squared_length(v) ≥ 0`;
`squared_length(v) = 0` if and only if `length(v) = 0`, if and only if all three components of
`v` are `0`; so `v` is non-zero exactly when `length(v) ≠ 0`. -/
theorem C19_squared_length_zero (v : vec3 ℝ) :
    0 ≤ squared_length v ∧
      (squared_length v = 0 ↔ ∀ i : Fin 3, component v i = 0) ∧
      (length v = 0 ↔ squared_length v = 0) ∧
      (length v = 0 ↔ ∀ i : Fin 3, component v i = 0) ∧
      (v ≠ Construct 0 0 0 ↔ length v ≠ 0) := by
  have hc : v = Construct 0 0 0 ↔ ∀ i : Fin 3, component v i = 0 := by
    constructor
    · intro h i
      subst h
      fin_cases i <;> rfl
    · intro h
      have h0 := h 0
      have h1 := h 1
      have h2 := h 2
      rcases v with ⟨a, b, c⟩
      simp only [component] at h0 h1 h2
      subst h0 h1 h2
      rfl
  refine ⟨sum_sq_nonneg v, ?_, length_eq_zero_iff_real v, ?_, ?_⟩
  · rw [squared_length_eq_zero_iff_real, hc]
  · rw [length_eq_zero_iff_real, squared_length_eq_zero_iff_real, hc]
  · rw [Ne, Ne, length_eq_zero_iff_real, squared_length_eq_zero_iff_real]

/-- C20: for all vectors `v1`, `v2`, `subtract(v1, v2)` is `add(v1, negate(v2))`, and
`negate(negate(v))` is `v` for every vector `v`, on `double` components and on the components
of any additive group such as the reals. -/
theorem C20_subtract_negate :
    (∀ v1 v2 : vec3 Dbl, subtract v1 v2 = add v1 (negate v2)) ∧
      (∀ v : vec3 Dbl, negate (negate v) = v) ∧
      (∀ (α : Type) [AddGroup α] (v1 v2 : vec3 α), subtract v1 v2 = add v1 (negate v2)) ∧
      (∀ (α : Type) [AddGroup α] (v : vec3 α), negate (negate v) = v) := by
  refine ⟨fun v1 v2 => rfl, fun v => ?_, fun α _ v1 v2 => ?_, fun α _ v => ?_⟩
  · rcases v with ⟨a, b, c⟩
    simp only [negate, Construct, Dbl.neg_neg]
  · simp only [subtract, add, negate, Construct, sub_eq_add_neg]
  · rcases v with ⟨a, b, c⟩
    simp only [negate, Construct, neg_neg]

end vec3
